import Mathlib

/-!
# parse.go : chapter document to tagged verse strings

A shallow embedding of `src/parse.go`.  The three package-level variables
`Chapter`, `Verse` and `Text` are passed explicitly as one record `Globals`;
a Go run-time panic (index out of range) is the `none` of `Option`.

Go strings are Lean strings.  The library calls `strings.Contains` and
`strings.Replace` are written out on the character lists; `strings.ToUpper`
is a parameter `ToUpper : String → String` of every function that reaches it.
The goquery document is a finite tree of text and element nodes; an absent
attribute reads as the empty string, as it does in the source, which drops the
second result of `Attr`.

The helper functions that `parse.go` calls and does not define are parameters
(`Helpers`) of `GenHtmlClass`, `GenFootnotes` and `Parse`; `str` and `concat` are
written out as concatenation.  The page that `GenDoc(url)` fetches is an argument of
`Parse`.
-/

namespace Parse

/-! ## Strings -/

/-- Occurrence test on character lists: `sub` starts at some position of the list. -/
def containsAux (sub : List Char) : List Char → Bool
  | [] => sub.isPrefixOf []
  | c :: cs => sub.isPrefixOf (c :: cs) || containsAux sub cs

/-- Go `strings.Contains(s, substr)`. -/
def Contains (s substr : String) : Bool :=
  containsAux substr.data s.data

/-- Left-to-right replacement of the non-overlapping occurrences of `old`;
the counter is the number of characters of a matched occurrence still to be dropped. -/
def replaceAux (old new : List Char) : Nat → List Char → List Char
  | _, [] => []
  | skip + 1, _ :: cs => replaceAux old new skip cs
  | 0, c :: cs =>
    if old.isPrefixOf (c :: cs) then new ++ replaceAux old new (old.length - 1) cs
    else c :: replaceAux old new 0 cs

/-- Go `strings.Replace(s, old, new, -1)` for a non-empty `old`
(the only call in the source passes `INDENT_1`). -/
def Replace (s old new : String) : String :=
  ⟨replaceAux old.data new.data 0 s.data⟩

/-- Modelled from the spec: helper `str` of the repository, not in `parse.go`;
"the verse's final string is the ordered concatenation of their textual renderings". -/
def str : List String → String
  | [] => ""
  | s :: ss => s ++ str ss

/-- Modelled from the spec: variadic helper `concat` of the repository, not in
`parse.go`; the class signature is `"text " + classFingerprint + v`, a plain concatenation. -/
def concat (args : List String) : String :=
  str args

/-! ## Constants -/

def PARAGRAPH : String := "paragraph"
def TITLE : String := "title"
def POETRY_LINE_NORMAL : String := "line"
def POETRY_LINE_INDENTED : String := "indent-1"
def INDENT_1 : String := "<PI1>"
def INDENT_2 : String := "<PI2>"
def INDENT_3 : String := "<PI3>"
def INDENT_CLOSE : String := "<CI>"
def PARAGRAPH_BREAK : String := "<CM>"
def TITLE_OPEN : String := "<TS>"
def TITLE_CLOSE : String := "<Ts>"
def WOJ_OPEN : String := "<FR>"
def WOJ_CLOSE : String := "<Fr>"
def FOOTNOTE_OPEN : String := "<RF>"
def FOOTNOTE_CLOSE : String := "<Rf>"

/-! ## The document tree (goquery) -/

/-- A node of the parsed document: a text node, or an element with its tag, its
`class` and `id` attributes and its child nodes.  (A comment node has no
attribute, no child and no text: it behaves as `text ""`.) -/
inductive Node where
  | text (data : String) : Node
  | elem (tag cls id : String) (children : List Node) : Node

/-- `Selection.Attr("class")` of a one-node selection. -/
def Node.class : Node → String
  | .text _ => ""
  | .elem _ cls _ _ => cls

/-- `Selection.Attr("id")` of a one-node selection. -/
def Node.id : Node → String
  | .text _ => ""
  | .elem _ _ id _ => id

/-- `Selection.Contents()` of a one-node selection: the child nodes, text nodes included. -/
def Node.Contents : Node → List Node
  | .text _ => []
  | .elem _ _ _ children => children

mutual
/-- `Selection.Text()` of a one-node selection: the text nodes below it, in document order. -/
def Node.Text : Node → String
  | .text data => data
  | .elem _ _ _ children => textOfNodes children
/-- `Selection.Text()` of a selection: the texts of its nodes, concatenated. -/
def textOfNodes : List Node → String
  | [] => ""
  | n :: ns => n.Text ++ textOfNodes ns
end

/-- `Selection.Attr(name)` reads the first node of the selection, "" when it is empty. -/
def firstId : List Node → String
  | [] => ""
  | n :: _ => n.id

mutual
/-- cascadia `MatchAll` for a tag selector: the node itself and its descendants, preorder. -/
def Node.matchAllTag (tag : String) : Node → List Node
  | .text _ => []
  | .elem t cls id children =>
    (if t = tag then [Node.elem t cls id children] else []) ++ matchAllTagList tag children
/-- `matchAllTag` over a list of siblings. -/
def matchAllTagList (tag : String) : List Node → List Node
  | [] => []
  | n :: ns => n.matchAllTag tag ++ matchAllTagList tag ns
end

/-- `s.Find(tag)` of a one-node selection: the descendants with that tag. -/
def Node.Find (s : Node) (tag : String) : List Node :=
  matchAllTagList tag s.Contents

/-- The separators of a `class` attribute value (space, tab, CR, LF, FF). -/
def isClassSep (c : Char) : Bool :=
  c = ' ' || c = '\t' || c = '\r' || c = '\n' || c = '\x0c'

/-- The fields of a `class` value between separators; `acc` is the field being read, reversed. -/
def classFields (acc : List Char) : List Char → List (List Char)
  | [] => [acc.reverse]
  | c :: cs => if isClassSep c then acc.reverse :: classFields [] cs else classFields (c :: acc) cs

/-- The CSS class selector `.name`: one of the fields of the `class` value is `name`. -/
def hasClass (cls name : String) : Bool :=
  (classFields [] cls.data).contains name.data

/-- A one-node selection together with what `Parents()` needs:
the `class` values of its element ancestors, nearest first. -/
structure Selection where
  node : Node
  parents : List String

mutual
/-- cascadia `MatchAll` for a class selector, recording the ancestors of each match. -/
def Node.matchAllClass (name : String) (parents : List String) : Node → List Selection
  | .text _ => []
  | .elem t cls id children =>
    (if hasClass cls name then [⟨Node.elem t cls id children, parents⟩] else [])
      ++ matchAllClassList name (cls :: parents) children
/-- `matchAllClass` over a list of siblings. -/
def matchAllClassList (name : String) (parents : List String) : List Node → List Selection
  | [] => []
  | n :: ns => n.matchAllClass name parents ++ matchAllClassList name parents ns
end

/-- `Doc.Find(".name")`: the document is given by the children of its root. -/
def FindClass (doc : List Node) (name : String) : List Selection :=
  matchAllClassList name [] doc

/-! ## Program state -/

abbrev TextContent := List String

structure VerseData where
  Number : Int
  HtmlClass : String
  ContainsPoetry : Bool
  Content : TextContent

structure ChapterData where
  Doc : List Node
  HtmlClass : String
  VerseIndex : Int
  Verses : List String
  Footnotes : List (String × String)

/-- The package-level variables `Chapter`, `Verse` and `Text`. -/
structure Globals where
  Chapter : ChapterData
  Verse : VerseData
  Text : TextContent

/-- Go map index `m[key]`: the value of the key, the zero value "" when the key is absent. -/
def mapIndex : List (String × String) → String → String
  | [], _ => ""
  | (k, v) :: m, key => if k = key then v else mapIndex m key

/-- Go map lookup `v, ok := m[key]`. -/
def mapLookup : List (String × String) → String → Option String
  | [], _ => none
  | (k, v) :: m, key => if k = key then some v else mapLookup m key

/-! ## Text Run Flattener -/

def TextContent.Clear (_Text : TextContent) : TextContent := []

/-- `Text.String()` (the name `String` is taken by the type). -/
def TextContent.asString (Text : TextContent) : String := str Text

def TextContent.Append (Text : TextContent) (args : List String) : TextContent :=
  Text ++ args

def TextContent.Footnote (Footnotes : List (String × String)) (Text : TextContent)
    (s : Node) : TextContent :=
  let fnLetter := textOfNodes (s.Find "a")
  let fnText := mapIndex Footnotes fnLetter
  Text.Append [FOOTNOTE_OPEN, fnText, FOOTNOTE_CLOSE]

def TextContent.SmallCaps (ToUpper : String → String) (Text : TextContent)
    (s : Node) : TextContent :=
  Text.Append [ToUpper s.Text]

mutual
/-- `Text.Analyse(s)`; the `woj` case is the body of `Text.WoJ(s.Contents())`. -/
def TextContent.Analyse (ToUpper : String → String) (Footnotes : List (String × String))
    (Text : TextContent) : Node → TextContent
  | .text data => Text.Append [data]
  | .elem t cls id children =>
    if Contains cls "woj" then
      (TextContent.AnalyseEach ToUpper Footnotes (Text.Append [WOJ_OPEN]) children).Append
        [WOJ_CLOSE]
    else if Contains cls "footnote" then
      Text.Footnote Footnotes (Node.elem t cls id children)
    else if Contains cls "small-caps" then
      Text.SmallCaps ToUpper (Node.elem t cls id children)
    else
      Text.Append [(Node.elem t cls id children).Text]
/-- The loop over `sel.Nodes` that calls `Text.Analyse(sel.Eq(i))` for each node. -/
def TextContent.AnalyseEach (ToUpper : String → String) (Footnotes : List (String × String))
    (Text : TextContent) : List Node → TextContent
  | [] => Text
  | s :: rest =>
    TextContent.AnalyseEach ToUpper Footnotes (TextContent.Analyse ToUpper Footnotes Text s) rest
end

/-- `Text.WoJ(sel)`. -/
def TextContent.WoJ (ToUpper : String → String) (Footnotes : List (String × String))
    (Text : TextContent) (sel : List Node) : TextContent :=
  (TextContent.AnalyseEach ToUpper Footnotes (Text.Append [WOJ_OPEN]) sel).Append [WOJ_CLOSE]

/-! ## Verse and chapter operations -/

/-- Go index expression `xs[i]`: a run-time panic (`none`) when `i` is out of range. -/
def index (xs : List String) (i : Int) : Option String :=
  if i < 0 then none else xs[i.toNat]?

def ChapterData.Clear (_Chapter : ChapterData) : ChapterData :=
  ⟨[], "", 0, [], []⟩

def ChapterData.Append (Chapter : ChapterData) (verseText : String) : ChapterData :=
  { Chapter with Verses := Chapter.Verses ++ [verseText] }

def VerseData.Clear (_Verse : VerseData) : VerseData :=
  ⟨0, "", false, []⟩

/-- `Verse.String()` (the name `String` is taken by the type). -/
def VerseData.asString (Verse : VerseData) : String :=
  str Verse.Content

def VerseData.Append (Verse : VerseData) (args : List String) : VerseData :=
  { Verse with Content := Verse.Content ++ args }

/-- `Verse.GenHtmlClass(verseNumber)`; the loop of `AddVerses` only passes numbers from 1 on,
for which `strconv.Itoa` gives the decimal digits. -/
def VerseData.GenHtmlClass (g : Globals) (verseNumber : Nat) : Globals :=
  let verseNumAsString := toString verseNumber
  { g with Verse :=
      { g.Verse with HtmlClass := concat ["text ", g.Chapter.HtmlClass, verseNumAsString] } }

/-- `Chapter.AddParagraph()`.  `append(prevVerses, lastVerseNew)` writes the slot that
`prevVerses` leaves free in the same array, so `temp` is the old list with its last
element replaced. -/
def ChapterData.AddParagraph (Chapter : ChapterData) : Option ChapterData :=
  let versesAdded : Int := Chapter.Verses.length
  if versesAdded = 0 then
    some Chapter
  else
    let lastIndex := versesAdded - 1
    match index Chapter.Verses lastIndex with
    | none => none
    | some lastVerse =>
      let prevVerses := Chapter.Verses.take lastIndex.toNat
      let lastVerseNew := concat [lastVerse, PARAGRAPH_BREAK]
      let temp := prevVerses ++ [lastVerseNew]
      some { Chapter with Verses := temp }

/-- `Verse.AddParagraph()`. -/
def VerseData.AddParagraph (Verse : VerseData) : Option VerseData :=
  let contentLength : Int := Verse.Content.length
  let lastIndex := contentLength - 1
  match index Verse.Content lastIndex with
  | none => none
  | some prevContent =>
    if prevContent = TITLE_CLOSE then some Verse
    else some (Verse.Append [PARAGRAPH_BREAK])

/-- `Verse.Paragraph()`. -/
def VerseData.Paragraph (g : Globals) : Option Globals :=
  let contentLength := g.Verse.Content.length
  if contentLength = 0 then
    match g.Chapter.AddParagraph with
    | none => none
    | some Chapter => some { g with Chapter := Chapter }
  else
    match g.Verse.AddParagraph with
    | none => none
    | some Verse => some { g with Verse := Verse }

/-- `Verse.ParseContents(sel)`; the deferred `Text.Clear()` runs last. -/
def VerseData.ParseContents (ToUpper : String → String) (g : Globals) (sel : List Node) :
    Globals :=
  let Text := TextContent.AnalyseEach ToUpper g.Chapter.Footnotes g.Text sel
  let Verse := g.Verse.Append [Text.asString]
  { g with Verse := Verse, Text := Text.Clear }

/-- `Verse.Title(s)`: the selection handed to `ParseContents` is `s` itself. -/
def VerseData.Title (ToUpper : String → String) (g : Globals) (s : Node) : Globals :=
  let g1 := { g with Verse := g.Verse.Append [TITLE_OPEN] }
  let g2 := VerseData.ParseContents ToUpper g1 [s]
  { g2 with Verse := g2.Verse.Append [TITLE_CLOSE] }

/-- `Verse.ParseProse(s)`. -/
def VerseData.ParseProse (ToUpper : String → String) (g : Globals) (s : Node) :
    Option Globals :=
  let id := s.id
  if id = "title" then
    some (VerseData.Title ToUpper g s)
  else if id = "paragraph" then
    match VerseData.Paragraph g with
    | none => none
    | some g1 => some (VerseData.ParseContents ToUpper g1 s.Contents)
  else
    some (VerseData.ParseContents ToUpper g s.Contents)

/-- The `default` case of `ParsePoetryLine` and `ParsePoetryIndent`:
open the indent, flatten the contents, close the indent. -/
def VerseData.indented (ToUpper : String → String) (indentTag : String) (g : Globals)
    (s : Node) : Globals :=
  let g1 := { g with Verse := g.Verse.Append [indentTag] }
  let g2 := VerseData.ParseContents ToUpper g1 s.Contents
  { g2 with Verse := g2.Verse.Append [INDENT_CLOSE] }

/-- `Verse.ParsePoetryLine(s)`. -/
def VerseData.ParsePoetryLine (ToUpper : String → String) (g : Globals) (s : Node) :
    Option Globals :=
  let id := s.id
  if id = "title" then
    some (VerseData.Title ToUpper g s)
  else if id = "paragraph" then
    match VerseData.Paragraph g with
    | none => none
    | some g1 => some (VerseData.indented ToUpper INDENT_1 g1 s)
  else
    some (VerseData.indented ToUpper INDENT_1 g s)

/-- `Verse.ParsePoetryIndent(s)`: the id is read from `s.Contents()`, that is from the
first child of `s`. -/
def VerseData.ParsePoetryIndent (ToUpper : String → String) (g : Globals) (s : Node) :
    Option Globals :=
  let id := firstId s.Contents
  if id = "title" then
    some (VerseData.Title ToUpper g s)
  else if id = "paragraph" then
    match VerseData.Paragraph g with
    | none => none
    | some g1 => some (VerseData.indented ToUpper INDENT_3 g1 s)
  else
    some (VerseData.indented ToUpper INDENT_3 g s)

/-- `Selection.Attr("class")` of `s.Parents()`, then of `s.Parents().Parents()`:
the class of the parent, and the class of the grandparent when the parent's class
contains "chapter". -/
def classParents (s : Selection) : String :=
  let c := s.parents.headD ""
  if Contains c "chapter" then s.parents.tail.headD "" else c

/-- `Verse.AnalyseGenre(s)`. -/
def VerseData.AnalyseGenre (ToUpper : String → String) (g : Globals) (s : Selection) :
    Option Globals :=
  let cp := classParents s
  if cp = POETRY_LINE_NORMAL then
    VerseData.ParsePoetryLine ToUpper
      { g with Verse := { g.Verse with ContainsPoetry := true } } s.node
  else if cp = POETRY_LINE_INDENTED then
    VerseData.ParsePoetryIndent ToUpper g s.node
  else
    VerseData.ParseProse ToUpper g s.node

/-- The callback of `Each` in `Verse.GenContent()`. -/
def VerseData.genContentStep (ToUpper : String → String) (g : Globals) (s : Selection) :
    Option Globals :=
  let currClass := s.node.class
  if currClass = g.Verse.HtmlClass then VerseData.AnalyseGenre ToUpper g s else some g

/-- `Each` over a selection, stopping at a panic. -/
def eachSel (f : Globals → Selection → Option Globals) : Globals → List Selection →
    Option Globals
  | g, [] => some g
  | g, s :: rest =>
    match f g s with
    | none => none
    | some g1 => eachSel f g1 rest

/-- `Verse.GenContent()`. -/
def VerseData.GenContent (ToUpper : String → String) (g : Globals) : Option Globals :=
  eachSel (VerseData.genContentStep ToUpper) g (FindClass g.Chapter.Doc "text")

/-- The loop of `Verse.CleanIndentTags()`. -/
def cleanLoop : Bool → TextContent → List String → TextContent
  | _, temp, [] => temp
  | isFirstInVerse, temp, s :: rest =>
    if Contains s INDENT_1 then
      if isFirstInVerse then
        cleanLoop false (temp.Append [s]) rest
      else
        cleanLoop isFirstInVerse (temp.Append [Replace s INDENT_1 INDENT_2]) rest
    else
      cleanLoop isFirstInVerse (temp.Append [s]) rest

/-- `Verse.CleanIndentTags()`. -/
def VerseData.CleanIndentTags (Verse : VerseData) : VerseData :=
  { Verse with Content := cleanLoop true [] Verse.Content }

/-- `Verse.CleanIndent()`. -/
def VerseData.CleanIndent (Verse : VerseData) : VerseData :=
  if Verse.ContainsPoetry then Verse.CleanIndentTags else Verse

/-- `Chapter.AddVerse(verseNumber)`; the deferred `Verse.Clear()` runs last. -/
def ChapterData.AddVerse (ToUpper : String → String) (g : Globals) (verseNumber : Nat) :
    Option Globals :=
  let g1 := VerseData.GenHtmlClass g verseNumber
  match VerseData.GenContent ToUpper g1 with
  | none => none
  | some g2 =>
    let g3 := { g2 with Verse := g2.Verse.CleanIndent }
    let g4 := { g3 with Chapter := g3.Chapter.Append g3.Verse.asString }
    some { g4 with Verse := g4.Verse.Clear }

/-- The loop `for verse := 1; verse <= lastVerse; verse++` of `AddVerses`,
over the verse numbers still to come.  (The numbers are unbounded here; the counter
of the source could only overflow after the largest `int` of verses, more finalized
strings than memory holds.) -/
def addVersesLoop (ToUpper : String → String) : Globals → List Nat → Option Globals
  | g, [] => some g
  | g, verse :: rest =>
    match ChapterData.AddVerse ToUpper g verse with
    | none => none
    | some g1 => addVersesLoop ToUpper g1 rest

/-- `Chapter.AddVerses()`. -/
def ChapterData.AddVerses (ToUpper : String → String) (g : Globals) : Option Globals :=
  let lastVerse := g.Chapter.VerseIndex
  addVersesLoop ToUpper g (List.range' 1 lastVerse.toNat)

/-- The state in which `Parse` calls `AddVerses`: the chapter as prepared, nothing
finalized yet, the verse record and the text buffer at their zero values. -/
def initial (Doc : List Node) (HtmlClass : String) (VerseIndex : Int)
    (Footnotes : List (String × String)) : Globals :=
  ⟨⟨Doc, HtmlClass, VerseIndex, [], Footnotes⟩, ⟨0, "", false, []⟩, []⟩

/-- The scenario chapter: two verses, the second a title node followed by a
paragraph-opening prose node. -/
def scenarioDoc (T : String) : List Node :=
  [ Node.elem "p" "" "" [Node.elem "span" "text Gen-1-1" "" [Node.text "In the beginning"]],
    Node.elem "h3" "" "" [Node.elem "span" "text Gen-1-2" "title" [Node.text T]],
    Node.elem "p" "" ""
      [Node.elem "span" "text Gen-1-2" "paragraph" [Node.text "God created the heavens."]] ]

/-! ## What one node adds to a verse

A closed form of `AnalyseGenre`, used to follow the pipeline through a chapter. -/

/-- The flattened text of a selection: the token that `ParseContents` appends when the
text buffer holds `Text` on entry (in the program the buffer is empty there). -/
def flatten (ToUpper : String → String) (Footnotes : List (String × String))
    (Text : TextContent) (sel : List Node) : String :=
  (TextContent.AnalyseEach ToUpper Footnotes Text sel).asString

/-- The id that the genre rule of a node reads: continuation poetry reads the id of the
first child, prose and first-line poetry read the id of the node. -/
def ruleId (s : Selection) : String :=
  if classParents s = POETRY_LINE_INDENTED then firstId s.node.Contents else s.node.id

/-- The tokens that the genre rule of a node appends for the node itself
(the paragraph break, if any, comes before them). -/
def nodeTokens (ToUpper : String → String) (Footnotes : List (String × String))
    (Text : TextContent) (s : Selection) : List String :=
  if ruleId s = "title" then
    [TITLE_OPEN, flatten ToUpper Footnotes Text [s.node], TITLE_CLOSE]
  else if classParents s = POETRY_LINE_NORMAL then
    [INDENT_1, flatten ToUpper Footnotes Text s.node.Contents, INDENT_CLOSE]
  else if classParents s = POETRY_LINE_INDENTED then
    [INDENT_3, flatten ToUpper Footnotes Text s.node.Contents, INDENT_CLOSE]
  else
    [flatten ToUpper Footnotes Text s.node.Contents]

/-- A list of strings with `t` appended to its last element. -/
def appendLast : List String → String → List String
  | [], _ => []
  | [a], t => [a ++ t]
  | a :: b :: rest, t => a :: appendLast (b :: rest) t

/-- The tokens that `Verse.Paragraph` appends to the token list `Content`. -/
def paragraphTokens (Content : List String) : List String :=
  if Content = [] then []
  else if Content.getLast? = some TITLE_CLOSE then []
  else [PARAGRAPH_BREAK]

/-- The list of finalized verses after `Verse.Paragraph`. -/
def paragraphVerses (Content Verses : List String) : List String :=
  if Content = [] then appendLast Verses PARAGRAPH_BREAK else Verses

/-- The state after `AnalyseGenre` on one node, in closed form. -/
def nodeStep (ToUpper : String → String) (g : Globals) (s : Selection) : Globals :=
  { Chapter :=
      { g.Chapter with
        Verses :=
          if ruleId s = "paragraph" then paragraphVerses g.Verse.Content g.Chapter.Verses
          else g.Chapter.Verses }
    Verse :=
      { g.Verse with
        ContainsPoetry :=
          g.Verse.ContainsPoetry || decide (classParents s = POETRY_LINE_NORMAL)
        Content :=
          g.Verse.Content
            ++ (if ruleId s = "paragraph" then paragraphTokens g.Verse.Content else [])
            ++ nodeTokens ToUpper g.Chapter.Footnotes g.Text s }
    Text := [] }

/-- The state after `GenContent`, in closed form: `nodeStep` for every matched node whose
class is the class signature of the verse. -/
def contentSteps (ToUpper : String → String) : Globals → List Selection → Globals
  | g, [] => g
  | g, s :: rest =>
    contentSteps ToUpper
      (if s.node.class = g.Verse.HtmlClass then nodeStep ToUpper g s else g) rest

/-- The state after `AddVerse`, in closed form. -/
def verseStep (ToUpper : String → String) (g : Globals) (verseNumber : Nat) : Globals :=
  let g2 := contentSteps ToUpper (VerseData.GenHtmlClass g verseNumber)
    (FindClass g.Chapter.Doc "text")
  { Chapter := g2.Chapter.Append g2.Verse.CleanIndent.asString
    Verse := ⟨0, "", false, []⟩
    Text := g2.Text }

/-- The state after the loop of `AddVerses`, in closed form. -/
def verseSteps (ToUpper : String → String) : Globals → List Nat → Globals
  | g, [] => g
  | g, verse :: rest => verseSteps ToUpper (verseStep ToUpper g verse) rest

/-- The chapter's document, class fingerprint, verse count and footnotes are the same in
both states (its finalized verses may differ). -/
def sameChapter (g g1 : Globals) : Prop :=
  g1.Chapter.Doc = g.Chapter.Doc ∧ g1.Chapter.HtmlClass = g.Chapter.HtmlClass
    ∧ g1.Chapter.VerseIndex = g.Chapter.VerseIndex ∧ g1.Chapter.Footnotes = g.Chapter.Footnotes

/-- An instance of the parameter `ToUpper` for concrete runs: `strings.ToUpper` on
texts whose letters are ASCII. -/
def asciiUpper (s : String) : String :=
  ⟨s.data.map Char.toUpper⟩

/-- A footnote reference as the source site writes it: `[l]` with the letter in an anchor. -/
def footnoteItem (l : String) : Node :=
  Node.elem "sup" "footnote" ""
    [Node.text "[", Node.elem "a" "" "" [Node.text l], Node.text "]"]

/-! ## The indent normalization on the rendered text -/

/-- The rendered text with the first occurrence of `old` left in place and every later
occurrence replaced by `new`. -/
def keepFirstAux (old new : List Char) : List Char → List Char
  | [] => []
  | c :: cs =>
    if old.isPrefixOf (c :: cs) then
      old ++ replaceAux old new 0 ((c :: cs).drop old.length)
    else c :: keepFirstAux old new cs

/-- The normalization as the specification words it, on the rendered text of a verse:
"the first occurrence per verse is left as single-indent, every subsequent single-indent
marker in that same verse is rewritten to double-indent". -/
def specNormalize (rendered : String) : String :=
  ⟨keepFirstAux INDENT_1.data INDENT_2.data rendered.data⟩

/-- No occurrence of `old` begins in the list, neither a complete one nor one that the
end of the list cuts off. -/
def startsNone (old : List Char) : List Char → Bool
  | [] => true
  | c :: cs =>
    !(old.isPrefixOf (c :: cs)) && !((c :: cs).isPrefixOf old) && startsNone old cs

/-- No occurrence of `<PI1>` begins in the token, complete or cut off by its end. -/
def noIndent1Starts (token : String) : Bool :=
  startsNone INDENT_1.data token.data

/-! ## Following one verse through the chapter -/

/-- The nodes of verse `verse`: the matches of `.text` whose class is the class signature
of the verse, in document order; `GenContent` hands exactly these to `AnalyseGenre`. -/
def verseNodes (g : Globals) (verse : Nat) : List Selection :=
  (FindClass g.Chapter.Doc "text").filter
    (fun s => decide (s.node.class = concat ["text ", g.Chapter.HtmlClass, toString verse]))

/-- The first token that the rule of a paragraph-opener appends for the node itself, in
prose and in first-line poetry: the indent marker, or the flattened text of the contents. -/
def openerToken (ToUpper : String → String) (Footnotes : List (String × String))
    (s : Selection) : String :=
  if classParents s = POETRY_LINE_NORMAL then INDENT_1
  else flatten ToUpper Footnotes [] s.node.Contents

/-- Go `strings.HasPrefix(s, p)`. -/
def startsWith (s p : String) : Bool :=
  p.data.isPrefixOf s.data

/-- A chapter of two verses, each one paragraph-opening prose node. -/
def twoParagraphsDoc : List Node :=
  [ Node.elem "p" "" ""
      [Node.elem "span" "text Gen-1-1" "paragraph" [Node.text "In the beginning"]],
    Node.elem "p" "" ""
      [Node.elem "span" "text Gen-1-2" "paragraph" [Node.text "God created."]] ]

/-- A chapter whose verse 2 has two paragraph-opening nodes, the first of them empty
(as a node is that held only a verse number, once `CleanDoc` has removed it). -/
def emptyOpenerDoc : List Node :=
  [ Node.elem "p" "" "" [Node.elem "span" "text Gen-1-1" "paragraph" [Node.text "a"]],
    Node.elem "p" "" "" [Node.elem "span" "text Gen-1-2" "paragraph" []],
    Node.elem "p" "" "" [Node.elem "span" "text Gen-1-2" "paragraph" [Node.text "b"]] ]

/-- How the list of finalized verses may change: it gets no shorter, every element but
its last stays as it is, and its last element is only extended at its end. -/
def grows (vs vs1 : List String) : Prop :=
  vs.length ≤ vs1.length
    ∧ (∀ i, i + 1 < vs.length → vs1[i]? = vs[i]?)
    ∧ (∀ a, vs[vs.length - 1]? = some a → ∃ suf, vs1[vs.length - 1]? = some (a ++ suf))

/-! ## Well-nested marker pairs -/

/-- The four marker pairs: title, quoted speech, footnote, indent. -/
inductive Kind where
  | title : Kind
  | woj : Kind
  | footnote : Kind
  | indent : Kind
  deriving DecidableEq

/-- An occurrence of a paired marker in a string: it opens or closes a pair. -/
inductive Mark where
  | opening (k : Kind) : Mark
  | closing (k : Kind) : Mark
  deriving DecidableEq

/-- The paired marker, if any, that starts at the head of the character list.
`<PI1>`, `<PI2>` and `<PI3>` all open an indent, which `<CI>` closes. -/
def markAt (s : List Char) : Option Mark :=
  if TITLE_OPEN.data.isPrefixOf s then some (Mark.opening Kind.title)
  else if TITLE_CLOSE.data.isPrefixOf s then some (Mark.closing Kind.title)
  else if WOJ_OPEN.data.isPrefixOf s then some (Mark.opening Kind.woj)
  else if WOJ_CLOSE.data.isPrefixOf s then some (Mark.closing Kind.woj)
  else if FOOTNOTE_OPEN.data.isPrefixOf s then some (Mark.opening Kind.footnote)
  else if FOOTNOTE_CLOSE.data.isPrefixOf s then some (Mark.closing Kind.footnote)
  else if INDENT_1.data.isPrefixOf s then some (Mark.opening Kind.indent)
  else if INDENT_2.data.isPrefixOf s then some (Mark.opening Kind.indent)
  else if INDENT_3.data.isPrefixOf s then some (Mark.opening Kind.indent)
  else if INDENT_CLOSE.data.isPrefixOf s then some (Mark.closing Kind.indent)
  else none

/-- The occurrences of paired markers in a character list, from left to right. -/
def marks : List Char → List Mark
  | [] => []
  | c :: cs =>
    match markAt (c :: cs) with
    | some m => m :: marks cs
    | none => marks cs

/-- The marker occurrences `ms` are well nested inside the pairs `open` that are open
already (innermost first): a closing marker closes the innermost open pair, and no pair is
left open at the end. -/
def nested : List Kind → List Mark → Bool
  | [], [] => true
  | _ :: _, [] => false
  | stack, Mark.opening k :: ms => nested (k :: stack) ms
  | [], Mark.closing _ :: _ => false
  | k1 :: stack, Mark.closing k :: ms => decide (k = k1) && nested stack ms

/-- Tag balance of a verse string: every opened marker has its close marker later in the
string, and pairs do not cross. -/
def wellNested (s : String) : Bool :=
  nested [] (marks s.data)

/-- The control markers of the target format. -/
def controlMarkers : List String :=
  [INDENT_1, INDENT_2, INDENT_3, INDENT_CLOSE, PARAGRAPH_BREAK, TITLE_OPEN, TITLE_CLOSE,
    WOJ_OPEN, WOJ_CLOSE, FOOTNOTE_OPEN, FOOTNOTE_CLOSE]

/-- The string contains none of the control markers. -/
def markerFree (s : String) : Bool :=
  controlMarkers.all (fun m => !Contains s m)

/-- The string has no character `<`. -/
def noLt (s : String) : Bool :=
  s.data.all (fun c => decide (c ≠ '<'))

mutual
/-- Every text node at or below the node satisfies `p`. -/
def Node.allTexts (p : String → Bool) : Node → Bool
  | .text data => p data
  | .elem _ _ _ children => allTextsList p children
/-- Every text node at or below the nodes of the list satisfies `p`. -/
def allTextsList (p : String → Bool) : List Node → Bool
  | [] => true
  | n :: ns => n.allTexts p && allTextsList p ns
end

/-- A chapter whose verse 1 is split over two nodes, with a text node between them. -/
def splitMarkerDoc : List Node :=
  [ Node.elem "p" "" ""
      [ Node.elem "span" "text Gen-1-1" "paragraph" [Node.text "<T"],
        Node.text " ",
        Node.elem "span" "text Gen-1-1" "" [Node.text "S>"] ] ]

/-- A chapter whose verse 1 holds the small-caps text `<ts>`. -/
def smallCapsMarkerDoc : List Node :=
  [ Node.elem "p" "" ""
      [ Node.elem "span" "text Gen-1-1" "paragraph"
          [Node.elem "span" "small-caps" "" [Node.text "<ts>"]] ] ]

/-- A chapter of one verse in poetry: two first lines and a continuation line, with a
footnote, quoted speech and small caps. -/
def poetryDoc : List Node :=
  [ Node.elem "div" "poetry" ""
      [ Node.elem "p" "line" ""
          [ Node.elem "span" "text Ps-1-1" "paragraph"
              [Node.text "Blessed is the one", footnoteItem "a"],
            Node.elem "span" "indent-1" ""
              [Node.elem "span" "text Ps-1-1" "" [Node.text "who walks"]] ],
        Node.elem "p" "line" ""
          [ Node.elem "span" "text Ps-1-1" "paragraph"
              [ Node.elem "span" "woj" ""
                  [ Node.text "says the ",
                    Node.elem "span" "small-caps" "" [Node.text "Lord"] ] ] ] ] ]

/-- The marker occurrences of the list lex the same whatever follows the list. -/
def Indep (s : List Char) : Prop :=
  ∀ rest, marks (s ++ rest) = marks s ++ marks rest

/-- The marker occurrences form a well-nested segment: inside any open pairs and before
any further occurrences they change nothing. -/
def BalSeg (ms : List Mark) : Prop :=
  ∀ stack rest, nested stack (ms ++ rest) = nested stack rest

/-- A string that lexes on its own and is a well-nested segment. -/
def VerseOK (s : String) : Prop :=
  Indep s.data ∧ BalSeg (marks s.data)

/-- A flattened text: a well-nested segment without indent markers. -/
def TextOK (s : String) : Prop :=
  VerseOK s ∧ Mark.opening Kind.indent ∉ marks s.data

/-- The invariant of the token list of a verse under construction. -/
def ContentOK (Content : List String) : Prop :=
  (∀ t ∈ Content, Indep t.data ∧ (Contains t INDENT_1 = true → t = INDENT_1))
    ∧ BalSeg (Content.flatMap (fun t => marks t.data))

/-! ## Counting marker occurrences -/

/-- The number of positions of the character list at which `sub` occurs. -/
def occurrencesAux (sub : List Char) : List Char → Nat
  | [] => 0
  | c :: cs => (if sub.isPrefixOf (c :: cs) then 1 else 0) + occurrencesAux sub cs

/-- The number of occurrences of the marker `substr` in `s` (for a marker, whose
occurrences cannot overlap, this is Go `strings.Count(s, substr)`). -/
def occurrences (s substr : String) : Nat :=
  occurrencesAux substr.data s.data

/-- The second list is the first with some characters `1` turned into `2`. -/
def same12 : List Char → List Char → Prop
  | [], [] => True
  | a :: as, b :: bs => (a = b ∨ (a = '1' ∧ b = '2')) ∧ same12 as bs
  | _, _ => False

/-! ## Preparing the chapter: `Parse` and the steps before `AddVerses` -/

/-- Helper functions of the repository that `parse.go` calls and does not define, taken as
parameters; `none` stands for a run-time panic inside the helper. -/
structure Helpers where
  prefixHyphenSecond : String → Option String
  suffixSpace : String → Option String
  suffixHyphenSecond : String → Option String
  IsNotEmpty : String → Bool
  lastLetter : String → Option String

/-- The number written by a list of decimal digits, read after `acc`; `none` when a
character is not a digit. -/
def digitsAux : Nat → List Char → Option Nat
  | acc, [] => some acc
  | acc, c :: cs =>
    if c.isDigit then digitsAux (acc * 10 + (c.toNat - 48)) cs else none

/-- The number written by a non-empty list of decimal digits. -/
def digitsValue (cs : List Char) : Option Nat :=
  if cs = [] then none else digitsAux 0 cs

/-- Go `strconv.Atoi(s)`: the value, and whether the error is nil.  A syntax error gives
the value 0; a value out of the range of `int` (64 bits) gives the nearest `int`. -/
def Atoi (s : String) : Int × Bool :=
  let negative := decide (s.data.head? = some '-')
  let digits :=
    if s.data.head? = some '-' ∨ s.data.head? = some '+' then s.data.tail else s.data
  match digitsValue digits with
  | none => (0, false)
  | some n =>
    if negative then
      (if n ≤ 2 ^ 63 then (-(n : Int), true) else (-(2 ^ 63 : Int), false))
    else
      (if n < 2 ^ 63 then ((n : Int), true) else ((2 ^ 63 - 1 : Int), false))

mutual
/-- cascadia `MatchAll` for the selector `tag .name`: the elements of class `name` that
have an ancestor element `tag`; `under` tells whether such an ancestor was passed. -/
def Node.matchAllUnder (tag name : String) (under : Bool) : Node → List Node
  | .text _ => []
  | .elem t cls id children =>
    (if under && hasClass cls name then [Node.elem t cls id children] else [])
      ++ matchAllUnderList tag name (under || decide (t = tag)) children
/-- `matchAllUnder` over a list of siblings. -/
def matchAllUnderList (tag name : String) (under : Bool) : List Node → List Node
  | [] => []
  | n :: ns => n.matchAllUnder tag name under ++ matchAllUnderList tag name under ns
end

/-- `Doc.Find("tag .name")`. -/
def FindUnder (doc : List Node) (tag name : String) : List Node :=
  matchAllUnderList tag name false doc

/-- `Selection.Last().Attr("class")`: the class of the last node, "" for the empty
selection. -/
def lastClass (sel : List Node) : String :=
  match sel.getLast? with
  | none => ""
  | some n => n.class

/-- `Selection.Attr("class")` reads the first node of the selection, "" when it is empty. -/
def firstClass : List Node → String
  | [] => ""
  | n :: _ => n.class

mutual
/-- `Find(".name").Remove()` below one node. -/
def Node.removeClass (name : String) : Node → Node
  | .text data => .text data
  | .elem t cls id children => .elem t cls id (removeClassList name children)
/-- `Find(".name").Remove()`: the elements of class `name` are taken out with all that
is below them. -/
def removeClassList (name : String) : List Node → List Node
  | [] => []
  | n :: ns =>
    (if hasClass n.class name then [] else [n.removeClass name]) ++ removeClassList name ns
end

/-- `Chapter.CleanDoc()`. -/
def ChapterData.CleanDoc (Chapter : ChapterData) : ChapterData :=
  { Chapter with
    Doc := removeClassList "crossreference"
      (removeClassList "versenum" (removeClassList "chapternum" Chapter.Doc)) }

/-- `Chapter.GenHtmlClass()`: the `ok` of `Attr` and the error of `strconv.Atoi` are
dropped by the source. -/
def ChapterData.GenHtmlClass (h : Helpers) (Chapter : ChapterData) : Option ChapterData :=
  let lastClass := lastClass (FindUnder Chapter.Doc "p" "text")
  match h.prefixHyphenSecond lastClass with
  | none => none
  | some doubleClass =>
    match h.suffixSpace doubleClass with
    | none => none
    | some chapterClass =>
      match h.suffixHyphenSecond lastClass with
      | none => none
      | some lastVerse =>
        let totalVerses := (Atoi lastVerse).1
        some { Chapter with HtmlClass := chapterClass, VerseIndex := totalVerses }

/-- The callback of `Each` in `GenFootnotes`, over the items of the footnote lists.  The
map is a list of entries read from its head, so a later entry for a letter hides an
earlier one, as the assignment `Chapter.Footnotes[footnoteLetter] = footnoteText` does. -/
def footnoteLoop (h : Helpers) : List (String × String) → List Node →
    Option (List (String × String))
  | Footnotes, [] => some Footnotes
  | Footnotes, s :: rest =>
    let id := s.id
    if Contains id "fen" then
      match h.lastLetter id with
      | none => none
      | some footnoteLetter =>
        let footnoteText :=
          textOfNodes ((matchAllClassList "footnote-text" [] s.Contents).map (fun x => x.node))
        footnoteLoop h ((footnoteLetter, footnoteText) :: Footnotes) rest
    else footnoteLoop h Footnotes rest

/-- `Chapter.GenFootnotes()`. -/
def ChapterData.GenFootnotes (h : Helpers) (Chapter : ChapterData) : Option ChapterData :=
  let footnoteTags := matchAllTagList "ol" Chapter.Doc
  let containsFootnotes := h.IsNotEmpty (textOfNodes footnoteTags)
  if containsFootnotes then
    match footnoteLoop h [] (footnoteTags.flatMap Node.Contents) with
    | none => none
    | some Footnotes => some { Chapter with Footnotes := Footnotes }
  else some { Chapter with Footnotes := [] }

mutual
/-- `Find("tag .text").Each(... SetAttr("id", "title"))` below one node. -/
def Node.tagTitles (tag : String) (under : Bool) : Node → Node
  | .text data => .text data
  | .elem t cls id children =>
    .elem t cls (if under && hasClass cls "text" then "title" else id)
      (tagTitlesList tag (under || decide (t = tag)) children)
/-- `tagTitles` over a list of siblings. -/
def tagTitlesList (tag : String) (under : Bool) : List Node → List Node
  | [] => []
  | n :: ns => n.tagTitles tag under :: tagTitlesList tag under ns
end

/-- `s.Contents().First().SetAttr("id", value)` for an element as first node.  (`TagDoc`
reaches a text node here only when the chapter's class is "", the class of a text node
being ""; the source then adds an attribute to the text node, which only `Attr` on that
node could read, and the tree here keeps the text node as it is.) -/
def setFirstId (value : String) : List Node → List Node
  | [] => []
  | .text data :: rest => .text data :: rest
  | .elem t cls _ children :: rest => .elem t cls value children :: rest

mutual
/-- The callback of `Find("p").Each` in `TagDoc`, below one node: the first child of every
`p` whose first child has a class that contains the chapter's class gets the id
"paragraph". -/
def Node.tagParagraphs (HtmlClass : String) : Node → Node
  | .text data => .text data
  | .elem t cls id children =>
    .elem t cls id
      (if t = "p" ∧ Contains (firstClass children) HtmlClass = true then
        setFirstId "paragraph" (tagParagraphsList HtmlClass children)
      else tagParagraphsList HtmlClass children)
/-- `tagParagraphs` over a list of siblings. -/
def tagParagraphsList (HtmlClass : String) : List Node → List Node
  | [] => []
  | n :: ns => n.tagParagraphs HtmlClass :: tagParagraphsList HtmlClass ns
end

/-- `Chapter.TagDoc()`. -/
def ChapterData.TagDoc (Chapter : ChapterData) : ChapterData :=
  { Chapter with
    Doc := tagParagraphsList Chapter.HtmlClass
      (tagTitlesList "h4" false (tagTitlesList "h3" false Chapter.Doc)) }

/-- `Chapter.Parse(url)`: `fetched` is the document that `GenDoc(url)` returns.  The result
is `chapterText` and the state after the deferred `Chapter.Clear()`. -/
def ChapterData.Parse (h : Helpers) (ToUpper : String → String) (fetched : List Node)
    (g : Globals) : Option (List String × Globals) :=
  let c1 := { g.Chapter with Doc := fetched }
  let c2 := c1.CleanDoc
  match c2.GenHtmlClass h with
  | none => none
  | some c3 =>
    match c3.GenFootnotes h with
    | none => none
    | some c4 =>
      let c5 := c4.TagDoc
      match ChapterData.AddVerses ToUpper { g with Chapter := c5 } with
      | none => none
      | some g6 => some (g6.Chapter.Verses, { g6 with Chapter := g6.Chapter.Clear })

/-- The text up to and including the `n`-th hyphen (all of it when there are fewer). -/
def throughHyphens : Nat → List Char → List Char
  | _, [] => []
  | 0, _ :: _ => []
  | n + 1, c :: cs => c :: throughHyphens (if c = '-' then n else n + 1) cs

/-- The text after the `n`-th hyphen (none when there are fewer). -/
def afterHyphens : Nat → List Char → List Char
  | _, [] => []
  | 0, c :: cs => c :: cs
  | n + 1, c :: cs => afterHyphens (if c = '-' then n else n + 1) cs

/-- The text after the first space (none when there is no space). -/
def afterSpace : List Char → List Char
  | [] => []
  | c :: cs => if c = ' ' then cs else afterSpace cs

/-- Modelled from the spec: the helpers `prefixHyphenSecond`, `suffixSpace`,
`suffixHyphenSecond`, `IsNotEmpty` and `lastLetter` of the repository, not in `parse.go`.
The class of a passage-text node is "text " and `<book>-<chapter>-<verse>`; the class
fingerprint is "the class value with its final verse-number component removed", the verse
count "the verse number parsed from that same last node", and a footnote is indexed by
"the single trailing letter of its identifier". -/
def specHelpers : Helpers where
  prefixHyphenSecond := fun s => some ⟨throughHyphens 2 s.data⟩
  suffixSpace := fun s => some ⟨afterSpace s.data⟩
  suffixHyphenSecond := fun s => some ⟨afterHyphens 2 s.data⟩
  IsNotEmpty := fun s => decide (s ≠ "")
  lastLetter := fun s => some ⟨s.data.drop (s.data.length - 1)⟩

/-- A fetched page of two verses, as the site writes it: verse numbers, a heading, a
footnote reference and the list of footnotes. -/
def fetchedDoc : List Node :=
  [ Node.elem "h3" "" "" [Node.elem "span" "text Gen-1-1" "en-1" [Node.text "The Beginning"]],
    Node.elem "p" "chapter-1" ""
      [ Node.elem "span" "text Gen-1-1" "en-1"
          [ Node.elem "span" "chapternum" "" [Node.text "1 "],
            Node.text "In the beginning",
            Node.elem "sup" "footnote" "" [Node.text "[", Node.elem "a" "" "" [Node.text "a"],
              Node.text "]"] ],
        Node.elem "span" "text Gen-1-2" "en-2"
          [Node.elem "sup" "versenum" "" [Node.text "2 "], Node.text "Now the earth"] ],
    Node.elem "ol" "" ""
      [ Node.elem "li" "" "fen-1a"
          [Node.elem "span" "footnote-text" "" [Node.text "Or When God began"]] ] ]

/-- A fetched page whose only passage-text node carries `x` where the verse number goes. -/
def badVerseDoc : List Node :=
  [ Node.elem "p" "" "" [Node.elem "span" "text Gen-1-x" "" [Node.text "In the beginning"]] ]

/-- A fetched page whose verse 1 has a heading with small caps and a footnote reference. -/
def psalmTitleDoc : List Node :=
  [ Node.elem "h4" "psalm-title" ""
      [ Node.elem "span" "text Ps-3-1" "en-1"
          [ Node.text "A psalm of the ",
            Node.elem "span" "small-caps" "" [Node.text "Lord"],
            footnoteItem "a" ] ],
    Node.elem "p" "" "" [Node.elem "span" "text Ps-3-1" "en-1" [Node.text "How many"]],
    Node.elem "ol" "" ""
      [ Node.elem "li" "" "fen-1a"
          [Node.elem "span" "footnote-text" "" [Node.text "In Hebrew texts 3:2"]] ] ]

/-- The heading node of `psalmTitleDoc` as `TagDoc` leaves it, with its ancestors. -/
def psalmTitle : Selection :=
  ⟨Node.elem "span" "text Ps-3-1" "title"
      [ Node.text "A psalm of the ",
        Node.elem "span" "small-caps" "" [Node.text "Lord"],
        footnoteItem "a" ],
    ["psalm-title"]⟩

/-- A fetched page whose continuation line is a `p` of the passage-text class: `TagDoc`
marks the first child of that `p`, not the `p`. -/
def indentParagraphDoc : List Node :=
  [ Node.elem "p" "line" "" [Node.elem "span" "text Ps-1-1" "en-1" [Node.text "Blessed"]],
    Node.elem "div" "indent-1" ""
      [ Node.elem "p" "text Ps-1-1" ""
          [Node.elem "span" "inner Ps-1-1" "" [Node.text "who walks"]] ] ]

/-- The continuation line of `indentParagraphDoc` as `TagDoc` leaves it: the node has no
id, its first child has the id "paragraph". -/
def plainIndented : Selection :=
  ⟨Node.elem "p" "text Ps-1-1" ""
      [Node.elem "span" "inner Ps-1-1" "paragraph" [Node.text "who walks"]],
    ["indent-1"]⟩

/-! ## Theorems -/

/-! ### Lists and the index expression -/

theorem index_concat_last (init : List String) (last : String) :
    index (init ++ [last]) (((init ++ [last]).length : Int) - 1) = some last := by
  have h : ((init ++ [last]).length : Int) - 1 = (init.length : Int) := by
    simp
  rw [h]
  simp [index]

theorem take_concat_last (init : List String) (last : String) :
    (init ++ [last]).take ((((init ++ [last]).length : Int) - 1).toNat) = init := by
  have h : ((init ++ [last]).length : Int) - 1 = (init.length : Int) := by
    simp
  rw [h]
  simp

theorem str_two (a b : String) : str [a, b] = a ++ b := by
  simp [str]

/-- What `Chapter.AddParagraph` does to a non-empty list of finalized verses. -/
theorem Chapter_AddParagraph_concat (Chapter : ChapterData) (init : List String)
    (last : String) (h : Chapter.Verses = init ++ [last]) :
    Chapter.AddParagraph
      = some { Chapter with Verses := init ++ [last ++ PARAGRAPH_BREAK] } := by
  unfold ChapterData.AddParagraph
  have hne : ¬ ((Chapter.Verses.length : Int) = 0) := by
    rw [h]; simp; omega
  simp only [hne, if_false]
  rw [h, index_concat_last, take_concat_last]
  simp [concat, str_two]

/-- What `Chapter.AddParagraph` does to the empty list. -/
theorem Chapter_AddParagraph_nil (Chapter : ChapterData) (h : Chapter.Verses = []) :
    Chapter.AddParagraph = some Chapter := by
  simp [ChapterData.AddParagraph, h]

/-- What `Verse.AddParagraph` does to a non-empty token list. -/
theorem Verse_AddParagraph_concat (Verse : VerseData) (init : List String)
    (last : String) (h : Verse.Content = init ++ [last]) :
    Verse.AddParagraph
      = some (if last = TITLE_CLOSE then Verse else Verse.Append [PARAGRAPH_BREAK]) := by
  unfold VerseData.AddParagraph
  simp only []
  rw [h, index_concat_last]
  by_cases ht : last = TITLE_CLOSE <;> simp [ht]

/-! ### C4, C5 -/

/-- C4. Paragraph Relocator (`Chapter.AddParagraph`): the call does not fail and changes
only the list of finalized verses; an empty list stays empty; otherwise the length is the
same, every element but the last is unchanged, and the last element is the old last
element followed by `<CM>`. -/
theorem C4_chapter_AddParagraph (Chapter : ChapterData) :
    ∃ C, Chapter.AddParagraph = some C
      ∧ C.Doc = Chapter.Doc ∧ C.HtmlClass = Chapter.HtmlClass
      ∧ C.VerseIndex = Chapter.VerseIndex ∧ C.Footnotes = Chapter.Footnotes
      ∧ (Chapter.Verses = [] → C.Verses = [])
      ∧ C.Verses.length = Chapter.Verses.length
      ∧ (∀ i, i + 1 < Chapter.Verses.length → C.Verses[i]? = Chapter.Verses[i]?)
      ∧ (∀ last, Chapter.Verses.getLast? = some last →
          C.Verses.getLast? = some (last ++ PARAGRAPH_BREAK)) := by
  rcases List.eq_nil_or_concat Chapter.Verses with h | ⟨init, last, h⟩
  · refine ⟨Chapter, Chapter_AddParagraph_nil Chapter h, rfl, rfl, rfl, rfl, ?_, rfl, ?_, ?_⟩
    · intro _; exact h
    · intro i _; rfl
    · intro last hl; rw [h] at hl; simp at hl
  · rw [List.concat_eq_append] at h
    refine ⟨_, Chapter_AddParagraph_concat Chapter init last h, rfl, rfl, rfl, rfl, ?_, ?_,
      ?_, ?_⟩
    · intro h0; rw [h0] at h; simp at h
    · simp [h]
    · intro i hi
      have hi2 : i < init.length := by
        rw [h] at hi; simp at hi; exact hi
      simp [h, List.getElem?_append_left, hi2]
    · intro l hl
      rw [h] at hl
      simp at hl
      simp [hl]

/-- C4 at the lists `[]` and `["a", "b"]`. -/
theorem C4_chapter_AddParagraph_witness :
    (∃ C, (ChapterData.mk [] "" 0 [] []).AddParagraph = some C ∧ C.Verses = [])
    ∧ (∃ C, (ChapterData.mk [] "" 0 ["a", "b"] []).AddParagraph = some C
        ∧ C.Verses = ["a", "b<CM>"]) := by
  constructor
  · obtain ⟨C, h, _, _, _, _, h0, _⟩ := C4_chapter_AddParagraph (ChapterData.mk [] "" 0 [] [])
    exact ⟨C, h, h0 rfl⟩
  · exact ⟨_, rfl, rfl⟩

/-- C5. Mid-verse paragraph rule (`Verse.Paragraph` with non-empty `Content`): the call
does not panic on the index expression, leaves the chapter (so its finalized verses) and
the text buffer unchanged, appends `<CM>` to the token list when the last token is not
`<Ts>`, and leaves the token list unchanged when the last token is `<Ts>`. -/
theorem C5_mid_verse_paragraph (g : Globals) (h : g.Verse.Content ≠ []) :
    ∃ g1, VerseData.Paragraph g = some g1
      ∧ g1.Chapter = g.Chapter ∧ g1.Text = g.Text
      ∧ g1.Verse.HtmlClass = g.Verse.HtmlClass
      ∧ g1.Verse.ContainsPoetry = g.Verse.ContainsPoetry
      ∧ (g.Verse.Content.getLast? ≠ some TITLE_CLOSE →
          g1.Verse.Content = g.Verse.Content ++ [PARAGRAPH_BREAK])
      ∧ (g.Verse.Content.getLast? = some TITLE_CLOSE →
          g1.Verse.Content = g.Verse.Content) := by
  rcases List.eq_nil_or_concat g.Verse.Content with h0 | ⟨init, last, hc⟩
  · exact absurd h0 h
  · rw [List.concat_eq_append] at hc
    have hlen : ¬ (g.Verse.Content.length = 0) := by
      rw [hc]; simp
    unfold VerseData.Paragraph
    simp only [hlen, if_false]
    rw [Verse_AddParagraph_concat g.Verse init last hc]
    by_cases ht : last = TITLE_CLOSE
    · refine ⟨_, rfl, rfl, rfl, ?_, ?_, ?_, ?_⟩
      · simp [ht]
      · simp [ht]
      · intro hn; exfalso; apply hn; simp [hc, ht]
      · intro _; simp [ht]
    · refine ⟨_, rfl, rfl, rfl, ?_, ?_, ?_, ?_⟩
      · simp [ht, VerseData.Append]
      · simp [ht, VerseData.Append]
      · intro _; simp [ht, VerseData.Append]
      · intro hl; exfalso; apply ht; simpa [hc] using hl

/-- C5 at the token lists `["<TS>", "x", "<Ts>"]` and `["x"]`. -/
theorem C5_mid_verse_paragraph_witness :
    (∃ g1, VerseData.Paragraph ⟨⟨[], "", 0, ["v"], []⟩, ⟨0, "", false, ["<TS>", "x", "<Ts>"]⟩, []⟩
        = some g1 ∧ g1.Chapter.Verses = ["v"] ∧ g1.Verse.Content = ["<TS>", "x", "<Ts>"])
    ∧ (∃ g1, VerseData.Paragraph ⟨⟨[], "", 0, ["v"], []⟩, ⟨0, "", false, ["x"]⟩, []⟩
        = some g1 ∧ g1.Chapter.Verses = ["v"] ∧ g1.Verse.Content = ["x", "<CM>"]) := by
  constructor
  · obtain ⟨g1, h1, h2, _, _, _, _, h3⟩ := C5_mid_verse_paragraph
      ⟨⟨[], "", 0, ["v"], []⟩, ⟨0, "", false, ["<TS>", "x", "<Ts>"]⟩, []⟩ (by simp)
    exact ⟨g1, h1, by rw [h2], h3 (by decide)⟩
  · obtain ⟨g1, h1, h2, _, _, _, h3, _⟩ := C5_mid_verse_paragraph
      ⟨⟨[], "", 0, ["v"], []⟩, ⟨0, "", false, ["x"]⟩, []⟩ (by simp)
    exact ⟨g1, h1, by rw [h2], h3 (by decide)⟩

/-! ### The flattener appends to its buffer -/

mutual
theorem TextContent.Analyse_append (U : String → String) (F : List (String × String)) :
    ∀ (s : Node) (T : TextContent),
      TextContent.Analyse U F T s = T ++ TextContent.Analyse U F [] s
  | .text d, T => by simp [TextContent.Analyse, TextContent.Append]
  | .elem t cls id ch, T => by
    have ih := TextContent.AnalyseEach_append U F ch
    unfold TextContent.Analyse
    by_cases h1 : Contains cls "woj" = true
    · simp only [h1, if_true, TextContent.Append]
      rw [ih (T ++ [WOJ_OPEN]), ih ([] ++ [WOJ_OPEN])]
      simp
    · simp only [h1]
      by_cases h2 : Contains cls "footnote" = true
      · simp [h2, TextContent.Footnote, TextContent.Append]
      · by_cases h3 : Contains cls "small-caps" = true
        · simp [h2, h3, TextContent.SmallCaps, TextContent.Append]
        · simp [h2, h3, TextContent.Append]
theorem TextContent.AnalyseEach_append (U : String → String) (F : List (String × String)) :
    ∀ (sel : List Node) (T : TextContent),
      TextContent.AnalyseEach U F T sel = T ++ TextContent.AnalyseEach U F [] sel
  | [], T => by simp [TextContent.AnalyseEach]
  | s :: rest, T => by
    unfold TextContent.AnalyseEach
    rw [TextContent.AnalyseEach_append U F rest (TextContent.Analyse U F T s),
      TextContent.AnalyseEach_append U F rest (TextContent.Analyse U F [] s),
      TextContent.Analyse_append U F s T]
    simp
end

/-! ### Closed form of the genre rules -/

theorem appendLast_concat (init : List String) (last t : String) :
    appendLast (init ++ [last]) t = init ++ [last ++ t] := by
  induction init with
  | nil => rfl
  | cons a init ih =>
    cases init with
    | nil => rfl
    | cons b rest =>
      have ih2 : appendLast (b :: (rest ++ [last])) t = b :: (rest ++ [last ++ t]) := ih
      show a :: appendLast (b :: (rest ++ [last])) t = a :: b :: (rest ++ [last ++ t])
      rw [ih2]

theorem appendLast_length (vs : List String) (t : String) :
    (appendLast vs t).length = vs.length := by
  rcases List.eq_nil_or_concat vs with h | ⟨init, last, h⟩
  · subst h; rfl
  · rw [List.concat_eq_append] at h
    subst h
    rw [appendLast_concat]
    simp

theorem VerseData.ParseContents_eq (U : String → String) (g : Globals) (sel : List Node) :
    VerseData.ParseContents U g sel
      = { g with
          Verse := g.Verse.Append [flatten U g.Chapter.Footnotes g.Text sel], Text := [] } := by
  simp [VerseData.ParseContents, flatten, TextContent.Clear]

theorem VerseData.Paragraph_eq (g : Globals) :
    VerseData.Paragraph g
      = some { g with
          Chapter :=
            { g.Chapter with Verses := paragraphVerses g.Verse.Content g.Chapter.Verses }
          Verse :=
            { g.Verse with Content := g.Verse.Content ++ paragraphTokens g.Verse.Content } } := by
  obtain ⟨⟨Doc, H, VI, Vs, F⟩, ⟨N, HC, CP, C⟩, T⟩ := g
  rcases List.eq_nil_or_concat C with hc | ⟨ci, cl, hc⟩
  · subst hc
    unfold VerseData.Paragraph
    simp only [List.length_nil, if_true]
    rcases List.eq_nil_or_concat Vs with hv | ⟨vi, vl, hv⟩
    · subst hv
      rw [Chapter_AddParagraph_nil _ rfl]
      simp [paragraphVerses, paragraphTokens, appendLast]
    · rw [List.concat_eq_append] at hv
      subst hv
      rw [Chapter_AddParagraph_concat _ vi vl rfl]
      simp [paragraphVerses, paragraphTokens, appendLast_concat]
  · rw [List.concat_eq_append] at hc
    subst hc
    have hlen : ¬ ((ci ++ [cl]).length = 0) := by simp
    unfold VerseData.Paragraph
    simp only [hlen, if_false]
    rw [Verse_AddParagraph_concat _ ci cl rfl]
    by_cases ht : cl = TITLE_CLOSE
    · simp [paragraphVerses, paragraphTokens, ht]
    · simp [paragraphVerses, paragraphTokens, ht, VerseData.Append]

theorem line_ne_indented : ¬ (POETRY_LINE_NORMAL = POETRY_LINE_INDENTED) := by decide

theorem title_ne_paragraph : ¬ ("title" = "paragraph") := by decide

theorem VerseData.AnalyseGenre_eq (U : String → String) (g : Globals) (s : Selection) :
    VerseData.AnalyseGenre U g s = some (nodeStep U g s) := by
  obtain ⟨⟨Doc, H, VI, Vs, F⟩, ⟨N, HC, CP, C⟩, T⟩ := g
  unfold VerseData.AnalyseGenre nodeStep nodeTokens ruleId
  generalize classParents s = cp
  by_cases hl : cp = POETRY_LINE_NORMAL
  · subst hl
    simp only [line_ne_indented, if_true, if_false]
    unfold VerseData.ParsePoetryLine
    generalize s.node.id = id
    by_cases h1 : id = "title"
    · subst h1
      simp [title_ne_paragraph, VerseData.Title, VerseData.ParseContents_eq, VerseData.Append]
    · by_cases h2 : id = "paragraph"
      · subst h2
        simp [h1, VerseData.Paragraph_eq, VerseData.indented, VerseData.ParseContents_eq,
          VerseData.Append]
      · simp [h1, h2, VerseData.indented, VerseData.ParseContents_eq, VerseData.Append]
  · by_cases hi : cp = POETRY_LINE_INDENTED
    · subst hi
      simp only [hl, if_true, if_false]
      unfold VerseData.ParsePoetryIndent
      generalize firstId s.node.Contents = id
      by_cases h1 : id = "title"
      · subst h1
        simp [title_ne_paragraph, VerseData.Title, VerseData.ParseContents_eq,
          VerseData.Append]
      · by_cases h2 : id = "paragraph"
        · subst h2
          simp [h1, VerseData.Paragraph_eq, VerseData.indented,
            VerseData.ParseContents_eq, VerseData.Append]
        · simp [h1, h2, VerseData.indented, VerseData.ParseContents_eq, VerseData.Append]
    · simp only [hl, hi, if_false]
      unfold VerseData.ParseProse
      generalize s.node.id = id
      by_cases h1 : id = "title"
      · subst h1
        simp [title_ne_paragraph, VerseData.Title, VerseData.ParseContents_eq,
          VerseData.Append]
      · by_cases h2 : id = "paragraph"
        · subst h2
          simp [h1, VerseData.Paragraph_eq, VerseData.ParseContents_eq, VerseData.Append]
        · simp [h1, h2, VerseData.ParseContents_eq, VerseData.Append]

/-! ### Closed form of the pipeline -/

theorem VerseData.genContentStep_eq (U : String → String) (g : Globals) (s : Selection) :
    VerseData.genContentStep U g s
      = some (if s.node.class = g.Verse.HtmlClass then nodeStep U g s else g) := by
  unfold VerseData.genContentStep
  by_cases h : s.node.class = g.Verse.HtmlClass
  · simp only [h, if_true, VerseData.AnalyseGenre_eq]
  · simp only [h, if_false]

theorem VerseData.GenContent_eachSel (U : String → String) (sels : List Selection) :
    ∀ g : Globals, eachSel (VerseData.genContentStep U) g sels = some (contentSteps U g sels) := by
  induction sels with
  | nil => intro g; rfl
  | cons s rest ih =>
    intro g
    rw [eachSel, contentSteps, VerseData.genContentStep_eq]
    exact ih _

theorem ChapterData.AddVerse_eq (U : String → String) (g : Globals) (v : Nat) :
    ChapterData.AddVerse U g v = some (verseStep U g v) := by
  unfold ChapterData.AddVerse VerseData.GenContent
  simp only [VerseData.GenContent_eachSel]
  rfl

theorem addVersesLoop_eq (U : String → String) (vs : List Nat) :
    ∀ g : Globals, addVersesLoop U g vs = some (verseSteps U g vs) := by
  induction vs with
  | nil => intro g; rfl
  | cons v rest ih =>
    intro g
    unfold addVersesLoop verseSteps
    simp only [ChapterData.AddVerse_eq]
    exact ih _

theorem ChapterData.AddVerses_eq (U : String → String) (g : Globals) :
    ChapterData.AddVerses U g
      = some (verseSteps U g (List.range' 1 g.Chapter.VerseIndex.toNat)) := by
  unfold ChapterData.AddVerses
  exact addVersesLoop_eq U _ g

/-! ### What the steps leave alone -/

theorem sameChapter_refl (g : Globals) : sameChapter g g :=
  ⟨rfl, rfl, rfl, rfl⟩

theorem sameChapter_trans {g g1 g2 : Globals} (h1 : sameChapter g g1) (h2 : sameChapter g1 g2) :
    sameChapter g g2 :=
  ⟨h2.1.trans h1.1, h2.2.1.trans h1.2.1, h2.2.2.1.trans h1.2.2.1, h2.2.2.2.trans h1.2.2.2⟩

theorem nodeStep_sameChapter (U : String → String) (g : Globals) (s : Selection) :
    sameChapter g (nodeStep U g s) :=
  ⟨rfl, rfl, rfl, rfl⟩

theorem paragraphVerses_length (C Vs : List String) :
    (paragraphVerses C Vs).length = Vs.length := by
  unfold paragraphVerses
  split
  · exact appendLast_length _ _
  · rfl

theorem nodeStep_verses_length (U : String → String) (g : Globals) (s : Selection) :
    (nodeStep U g s).Chapter.Verses.length = g.Chapter.Verses.length := by
  unfold nodeStep
  simp only
  split
  · exact paragraphVerses_length _ _
  · rfl

theorem contentSteps_sameChapter (U : String → String) (sels : List Selection) :
    ∀ g : Globals, sameChapter g (contentSteps U g sels) := by
  induction sels with
  | nil => intro g; exact sameChapter_refl g
  | cons s rest ih =>
    intro g
    rw [contentSteps]
    split
    · exact sameChapter_trans (nodeStep_sameChapter U g s) (ih _)
    · exact ih _

theorem contentSteps_verses_length (U : String → String) (sels : List Selection) :
    ∀ g : Globals, (contentSteps U g sels).Chapter.Verses.length = g.Chapter.Verses.length := by
  induction sels with
  | nil => intro g; rfl
  | cons s rest ih =>
    intro g
    rw [contentSteps]
    split
    · rw [ih, nodeStep_verses_length]
    · exact ih _

theorem verseStep_sameChapter (U : String → String) (g : Globals) (v : Nat) :
    sameChapter g (verseStep U g v) := by
  have h := contentSteps_sameChapter U (FindClass g.Chapter.Doc "text")
    (VerseData.GenHtmlClass g v)
  exact ⟨h.1, h.2.1, h.2.2.1, h.2.2.2⟩

theorem verseStep_verses_length (U : String → String) (g : Globals) (v : Nat) :
    (verseStep U g v).Chapter.Verses.length = g.Chapter.Verses.length + 1 := by
  have h := contentSteps_verses_length U (FindClass g.Chapter.Doc "text")
    (VerseData.GenHtmlClass g v)
  simp only [verseStep, ChapterData.Append, List.length_append, List.length_singleton, h]
  rfl

theorem verseSteps_sameChapter (U : String → String) (vs : List Nat) :
    ∀ g : Globals, sameChapter g (verseSteps U g vs) := by
  induction vs with
  | nil => intro g; exact sameChapter_refl g
  | cons v rest ih =>
    intro g
    rw [verseSteps]
    exact sameChapter_trans (verseStep_sameChapter U g v) (ih _)

theorem verseSteps_verses_length (U : String → String) (vs : List Nat) :
    ∀ g : Globals,
      (verseSteps U g vs).Chapter.Verses.length = g.Chapter.Verses.length + vs.length := by
  induction vs with
  | nil => intro g; rfl
  | cons v rest ih =>
    intro g
    rw [verseSteps, ih, verseStep_verses_length]
    simp only [List.length_cons]
    omega

/-! ### C2 -/

/-- C2. Verse count invariant: for every chapter state with verse count `n` (so for every
`n ≥ 1`) and an empty list of finalized verses, `AddVerses` returns, and the list
`Chapter.Verses` of the state it returns has exactly `n` elements.  Each `AddVerse`
returns and makes the list exactly one longer, whatever it relocates. -/
theorem C2_verse_count (ToUpper : String → String) (g : Globals) (n : Nat)
    (hcount : g.Chapter.VerseIndex = (n : Int)) (hempty : g.Chapter.Verses = []) :
    (∃ g1, ChapterData.AddVerses ToUpper g = some g1 ∧ g1.Chapter.Verses.length = n)
      ∧ ∀ (g0 : Globals) (verse : Nat), ∃ g1, ChapterData.AddVerse ToUpper g0 verse = some g1
          ∧ g1.Chapter.Verses.length = g0.Chapter.Verses.length + 1 := by
  refine ⟨⟨_, ChapterData.AddVerses_eq ToUpper g, ?_⟩, ?_⟩
  · rw [verseSteps_verses_length, hempty, hcount]
    simp
  · intro g0 verse
    exact ⟨_, ChapterData.AddVerse_eq ToUpper g0 verse, verseStep_verses_length ToUpper g0 verse⟩

/-- C2 at the scenario chapter, whose verse count is 2. -/
theorem C2_verse_count_witness :
    ∃ g1, ChapterData.AddVerses asciiUpper (initial (scenarioDoc "Creation") "Gen-1-" 2 [])
        = some g1
      ∧ g1.Chapter.Verses.length = 2 :=
  (C2_verse_count asciiUpper (initial (scenarioDoc "Creation") "Gen-1-" 2 []) 2 rfl rfl).1

/-! ### C6 -/

theorem containsAux_CM_append (t b : List Char)
    (ht : containsAux ['<', 'C', 'M', '>'] t = false)
    (hb : containsAux ['<', 'C', 'M', '>'] b = false)
    (hb0 : ∀ c rest, b = c :: rest → c = '<') :
    containsAux ['<', 'C', 'M', '>'] (t ++ b) = false := by
  induction t with
  | nil => exact hb
  | cons c t1 ih =>
    simp only [containsAux, Bool.or_eq_false_iff] at ht
    have ih1 := ih ht.2
    simp only [List.cons_append, containsAux, Bool.or_eq_false_iff]
    refine ⟨?_, ih1⟩
    have h1 := ht.1
    match t1, h1 with
    | [], _ =>
      cases b with
      | nil => simp [List.isPrefixOf]
      | cons d b1 =>
        have := hb0 d b1 rfl
        subst this
        simp [List.isPrefixOf]
    | [x], _ =>
      cases b with
      | nil => simp [List.isPrefixOf]
      | cons d b1 =>
        have := hb0 d b1 rfl
        subst this
        simp [List.isPrefixOf]
    | [x, y], _ =>
      cases b with
      | nil => simp [List.isPrefixOf]
      | cons d b1 =>
        have := hb0 d b1 rfl
        subst this
        simp [List.isPrefixOf]
    | x :: y :: z :: t2, h1 =>
      simpa [List.isPrefixOf] using h1

theorem scenario_verses (U : String → String) (T : String) :
    (verseSteps U (initial (scenarioDoc T) "Gen-1-" 2 []) [1, 2]).Chapter.Verses
      = ["In the beginning", TITLE_OPEN ++ T ++ TITLE_CLOSE ++ "God created the heavens."] := by
  have h : (verseSteps U (initial (scenarioDoc T) "Gen-1-" 2 []) [1, 2]).Chapter.Verses
      = ["In the beginning",
          str ["<TS>", str [T ++ ""], "<Ts>", str ["God created the heavens."]]] := by
    rfl
  rw [h]
  simp [str, String.append_assoc, TITLE_OPEN, TITLE_CLOSE]

/-- C6. Example scenario: for the chapter with verse count 2, no footnotes, verse 1 one
plain prose node "In the beginning", verse 2 a title-marked node with text `T` followed by a
paragraph-opening prose node "God created the heavens.", the pipeline returns exactly the
two strings "In the beginning" and `<TS>` + `T` + `<Ts>` + "God created the heavens.";
neither contains `<CM>` (when the title text `T` itself does not). -/
theorem C6_example_scenario (ToUpper : String → String) (T : String) :
    ∃ g1, ChapterData.AddVerses ToUpper (initial (scenarioDoc T) "Gen-1-" 2 []) = some g1
      ∧ g1.Chapter.Verses
          = ["In the beginning", TITLE_OPEN ++ T ++ TITLE_CLOSE ++ "God created the heavens."]
      ∧ (Contains T PARAGRAPH_BREAK = false →
          ∀ v ∈ g1.Chapter.Verses, Contains v PARAGRAPH_BREAK = false) := by
  refine ⟨_, ChapterData.AddVerses_eq ToUpper _, scenario_verses ToUpper T, ?_⟩
  intro hT v hv
  have hv2 : v ∈ ["In the beginning",
      TITLE_OPEN ++ T ++ TITLE_CLOSE ++ "God created the heavens."] := by
    rw [← scenario_verses ToUpper T]; exact hv
  simp only [List.mem_cons, List.mem_singleton, List.not_mem_nil, or_false] at hv2
  rcases hv2 with h | h
  · subst h; decide
  · subst h
    have hb : containsAux ['<', 'C', 'M', '>']
        ("<Ts>God created the heavens.".data) = false := by decide
    have h1 := containsAux_CM_append T.data ("<Ts>God created the heavens.".data) hT hb
      (by intro c rest h; simp at h; exact h.1.symm)
    simp only [Contains, TITLE_OPEN, TITLE_CLOSE, PARAGRAPH_BREAK, String.data_append,
      List.append_assoc]
    show containsAux ['<', 'C', 'M', '>']
      ('<' :: 'T' :: 'S' :: '>' :: (T.data ++ ("<Ts>".data ++ "God created the heavens.".data)))
      = false
    simp only [containsAux, List.isPrefixOf]
    have h2 : "<Ts>".data ++ "God created the heavens.".data
        = "<Ts>God created the heavens.".data := by decide
    rw [h2, h1]
    simp

/-- C6 at the title text "The Creation". -/
theorem C6_example_scenario_witness :
    ∃ g1, ChapterData.AddVerses asciiUpper (initial (scenarioDoc "The Creation") "Gen-1-" 2 [])
        = some g1
      ∧ g1.Chapter.Verses
          = ["In the beginning", "<TS>The Creation<Ts>God created the heavens."]
      ∧ ∀ v ∈ g1.Chapter.Verses, Contains v "<CM>" = false := by
  obtain ⟨g1, h1, h2, h3⟩ := C6_example_scenario asciiUpper "The Creation"
  exact ⟨g1, h1, by rw [h2]; decide, h3 (by decide)⟩

/-! ### C9 -/

theorem mapIndex_of_lookup (F : List (String × String)) (l : String) :
    (∀ v, mapLookup F l = some v → mapIndex F l = v)
      ∧ (mapLookup F l = none → mapIndex F l = "") := by
  induction F with
  | nil => simp [mapLookup, mapIndex]
  | cons kv F ih =>
    obtain ⟨k, v⟩ := kv
    by_cases h : k = l
    · simp [mapLookup, mapIndex, h]
    · simpa [mapLookup, mapIndex, h] using ih

/-- C9. Footnote substitution: for every footnote map `F` and every item whose anchor text
is the letter `l`, `Text.Footnote` appends exactly the three tokens `<RF>`, `F[l]`, `<Rf>`
when `l` is a key of `F`, and exactly `<RF>`, "", `<Rf>` when it is not; the flattener is a
total function, a missing key is no failure.  `Text.Analyse` hands an item to
`Text.Footnote` when its class contains "footnote" and not "woj", which is tested first. -/
theorem C9_footnote_substitution (ToUpper : String → String) (F : List (String × String))
    (Text : TextContent) (s : Node) (l : String) (hl : textOfNodes (s.Find "a") = l) :
    (∀ v, mapLookup F l = some v →
        TextContent.Footnote F Text s = Text ++ [FOOTNOTE_OPEN, v, FOOTNOTE_CLOSE])
      ∧ (mapLookup F l = none →
        TextContent.Footnote F Text s = Text ++ [FOOTNOTE_OPEN, "", FOOTNOTE_CLOSE])
      ∧ (Contains s.class "woj" = false → Contains s.class "footnote" = true →
        TextContent.Analyse ToUpper F Text s = TextContent.Footnote F Text s) := by
  have hm := mapIndex_of_lookup F l
  refine ⟨?_, ?_, ?_⟩
  · intro v hv
    simp [TextContent.Footnote, TextContent.Append, hl, hm.1 v hv]
  · intro hn
    simp [TextContent.Footnote, TextContent.Append, hl, hm.2 hn]
  · intro hw hf
    cases s with
    | text d => simp [Node.class, Contains, containsAux] at hf
    | elem t cls id ch =>
      simp only [Node.class] at hw hf
      simp [TextContent.Analyse, hw, hf]

/-- C9 at the map with the one entry "a" ↦ "See also Exodus 3:14", for the letters
"a" and "b": the flattened texts are `<RF>See also Exodus 3:14<Rf>` and `<RF><Rf>`. -/
theorem C9_footnote_substitution_witness :
    (TextContent.Analyse asciiUpper [("a", "See also Exodus 3:14")] [] (footnoteItem "a")).asString
        = "<RF>See also Exodus 3:14<Rf>"
      ∧ (TextContent.Analyse asciiUpper [("a", "See also Exodus 3:14")] [] (footnoteItem "b")).asString
        = "<RF><Rf>" := by
  have ha := C9_footnote_substitution asciiUpper [("a", "See also Exodus 3:14")] []
    (footnoteItem "a") "a" (by decide)
  have hb := C9_footnote_substitution asciiUpper [("a", "See also Exodus 3:14")] []
    (footnoteItem "b") "b" (by decide)
  constructor
  · rw [ha.2.2 (by decide) (by decide), ha.1 "See also Exodus 3:14" (by decide)]
    decide
  · rw [hb.2.2 (by decide) (by decide), hb.2.1 (by decide)]
    decide

/-! ### C10 -/

theorem TextContent.Analyse_plain (U : String → String) (F : List (String × String))
    (Text : TextContent) (s : Node) (hw : Contains s.class "woj" = false)
    (hf : Contains s.class "footnote" = false) :
    TextContent.Analyse U F Text s
      = Text ++ [if Contains s.class "small-caps" = true then U s.Text else s.Text] := by
  cases s with
  | text d =>
    have h : Contains "" "small-caps" = false := by decide
    simp [TextContent.Analyse, TextContent.Append, h, Node.Text, Node.class]
  | elem t cls id ch =>
    simp only [Node.class] at hw hf ⊢
    by_cases hs : Contains cls "small-caps" = true
    · simp [TextContent.Analyse, hw, hf, hs, TextContent.SmallCaps, TextContent.Append]
    · simp [TextContent.Analyse, hw, hf, hs, TextContent.Append]

theorem TextContent.AnalyseEach_plain (U : String → String) (F : List (String × String))
    (sel : List Node) :
    ∀ Text : TextContent,
      (∀ s ∈ sel, Contains s.class "woj" = false ∧ Contains s.class "footnote" = false) →
      TextContent.AnalyseEach U F Text sel
        = Text ++ sel.map
            (fun s => if Contains s.class "small-caps" = true then U s.Text else s.Text) := by
  induction sel with
  | nil => intro Text _; simp [TextContent.AnalyseEach]
  | cons s rest ih =>
    intro Text h
    have hs := h s (List.mem_cons_self _ _)
    rw [TextContent.AnalyseEach, TextContent.Analyse_plain U F Text s hs.1 hs.2,
      ih _ (fun x hx => h x (List.mem_cons_of_mem _ hx))]
    simp

/-- C10 as stated fails.  A small-caps node below a plain item is not upper-cased: the
item `<i><span class="small-caps">Lord</span></i>` is flattened to the token "Lord", which
does not contain "LORD".  Text that is not under a small-caps node can be altered: the
footnote item `[a]` is flattened to `<RF><Rf>`, which does not contain "[a]". -/
theorem C10_small_caps_counterexample :
    (VerseData.ParseContents asciiUpper (initial [] "" 0 [])
        [Node.elem "i" "" "" [Node.elem "span" "small-caps" "" [Node.text "Lord"]]]).Verse.Content
        = ["Lord"]
      ∧ asciiUpper "Lord" = "LORD" ∧ Contains "Lord" "LORD" = false
      ∧ (VerseData.ParseContents asciiUpper (initial [] "" 0 [])
          [footnoteItem "a"]).Verse.Content = ["<RF><Rf>"]
      ∧ (footnoteItem "a").Text = "[a]" ∧ Contains "<RF><Rf>" "[a]" = false := by
  decide

/-- C10, amended. Small-caps transformation: for every item that `Text.Analyse` receives
and whose class contains neither "woj" nor "footnote", exactly one token is appended: the
upper-cased text of the item when its class contains "small-caps", the text of the item as
it is otherwise.  So for every list of such items `ParseContents` appends to the verse
exactly one token, the concatenation of these texts in document order, and changes nothing
else but the text buffer, which it leaves empty. -/
theorem C10_small_caps_amended (ToUpper : String → String) (g : Globals) (sel : List Node)
    (hT : g.Text = [])
    (h : ∀ s ∈ sel, Contains s.class "woj" = false ∧ Contains s.class "footnote" = false) :
    (∀ s ∈ sel, ∀ Text : TextContent,
        TextContent.Analyse ToUpper g.Chapter.Footnotes Text s
          = Text ++ [if Contains s.class "small-caps" = true then ToUpper s.Text else s.Text])
      ∧ (VerseData.ParseContents ToUpper g sel).Verse.Content
          = g.Verse.Content ++ [str (sel.map
              (fun s => if Contains s.class "small-caps" = true then ToUpper s.Text else s.Text))]
      ∧ (VerseData.ParseContents ToUpper g sel).Chapter = g.Chapter
      ∧ (VerseData.ParseContents ToUpper g sel).Text = [] := by
  refine ⟨?_, ?_, rfl, rfl⟩
  · intro s hs Text
    exact TextContent.Analyse_plain ToUpper _ Text s (h s hs).1 (h s hs).2
  · simp [VerseData.ParseContents, VerseData.Append, TextContent.asString, hT,
      TextContent.AnalyseEach_plain ToUpper g.Chapter.Footnotes sel [] h]

/-- C10, amended, at the items "the ", `<span class="small-caps">Lord</span>`, " said". -/
theorem C10_small_caps_amended_witness :
    (VerseData.ParseContents asciiUpper (initial [] "" 0 [])
        [Node.text "the ", Node.elem "span" "small-caps" "" [Node.text "Lord"],
          Node.text " said"]).Verse.Content = ["the LORD said"] := by
  have h := (C10_small_caps_amended asciiUpper (initial [] "" 0 [])
    [Node.text "the ", Node.elem "span" "small-caps" "" [Node.text "Lord"], Node.text " said"]
    rfl (by decide)).2.1
  rw [h]
  decide

/-! ### Replacing `<PI1>` by `<PI2>` leaves no `<PI1>` -/

theorem replaceAux_at (t : List Char) :
    replaceAux ['<', 'P', 'I', '1', '>'] ['<', 'P', 'I', '2', '>'] 0
        ('<' :: 'P' :: 'I' :: '1' :: '>' :: t)
      = '<' :: 'P' :: 'I' :: '2' :: '>'
          :: replaceAux ['<', 'P', 'I', '1', '>'] ['<', 'P', 'I', '2', '>'] 0 t := by
  simp [replaceAux, List.isPrefixOf]

theorem replaceAux_off (c : Char) (cs : List Char)
    (h : List.isPrefixOf ['<', 'P', 'I', '1', '>'] (c :: cs) = false) :
    replaceAux ['<', 'P', 'I', '1', '>'] ['<', 'P', 'I', '2', '>'] 0 (c :: cs)
      = c :: replaceAux ['<', 'P', 'I', '1', '>'] ['<', 'P', 'I', '2', '>'] 0 cs := by
  simp [replaceAux, h]

theorem isPrefixOf_PI1 (s : List Char)
    (h : List.isPrefixOf ['<', 'P', 'I', '1', '>'] s = true) :
    ∃ t, s = '<' :: 'P' :: 'I' :: '1' :: '>' :: t := by
  rw [List.isPrefixOf_iff_prefix] at h
  obtain ⟨t, ht⟩ := h
  exact ⟨t, by rw [← ht]; rfl⟩

/-- The first character of the replaced list, when it is not `<`, is the first character
of the list. -/
theorem replaceAux_head (x : Char) (hx : x ≠ '<') (s u : List Char)
    (h : replaceAux ['<', 'P', 'I', '1', '>'] ['<', 'P', 'I', '2', '>'] 0 s = x :: u) :
    ∃ s1, s = x :: s1
      ∧ u = replaceAux ['<', 'P', 'I', '1', '>'] ['<', 'P', 'I', '2', '>'] 0 s1 := by
  cases s with
  | nil => simp [replaceAux] at h
  | cons c cs =>
    by_cases hp : List.isPrefixOf ['<', 'P', 'I', '1', '>'] (c :: cs) = true
    · obtain ⟨t, ht⟩ := isPrefixOf_PI1 _ hp
      rw [ht, replaceAux_at] at h
      simp only [List.cons.injEq] at h
      exact absurd h.1.symm hx
    · simp only [Bool.not_eq_true] at hp
      rw [replaceAux_off c cs hp] at h
      simp only [List.cons.injEq] at h
      exact ⟨cs, by rw [h.1], h.2.symm⟩

theorem replaceAux_no_new (c : Char) (cs : List Char)
    (h : List.isPrefixOf ['<', 'P', 'I', '1', '>']
      (c :: replaceAux ['<', 'P', 'I', '1', '>'] ['<', 'P', 'I', '2', '>'] 0 cs) = true) :
    List.isPrefixOf ['<', 'P', 'I', '1', '>'] (c :: cs) = true := by
  obtain ⟨t, ht⟩ := isPrefixOf_PI1 _ h
  simp only [List.cons.injEq] at ht
  obtain ⟨hc, h1⟩ := ht
  obtain ⟨s1, e1, h2⟩ := replaceAux_head 'P' (by decide) cs _ h1
  obtain ⟨s2, e2, h3⟩ := replaceAux_head 'I' (by decide) s1 _ h2.symm
  obtain ⟨s3, e3, h4⟩ := replaceAux_head '1' (by decide) s2 _ h3.symm
  obtain ⟨s4, e4, _⟩ := replaceAux_head '>' (by decide) s3 _ h4.symm
  subst e4 e3 e2 e1 hc
  simp [List.isPrefixOf]

theorem containsAux_PI1_skip (u : List Char) :
    containsAux ['<', 'P', 'I', '1', '>'] ('<' :: 'P' :: 'I' :: '2' :: '>' :: u)
      = containsAux ['<', 'P', 'I', '1', '>'] u := by
  simp [containsAux, List.isPrefixOf]

theorem replaceAux_no_PI1 (n : Nat) :
    ∀ s : List Char, s.length ≤ n →
      containsAux ['<', 'P', 'I', '1', '>']
        (replaceAux ['<', 'P', 'I', '1', '>'] ['<', 'P', 'I', '2', '>'] 0 s) = false := by
  induction n with
  | zero =>
    intro s hs
    have : s = [] := List.length_eq_zero.mp (Nat.le_zero.mp hs)
    subst this
    decide
  | succ n ih =>
    intro s hs
    cases s with
    | nil => decide
    | cons c cs =>
      by_cases hp : List.isPrefixOf ['<', 'P', 'I', '1', '>'] (c :: cs) = true
      · obtain ⟨t, ht⟩ := isPrefixOf_PI1 _ hp
        rw [ht, replaceAux_at, containsAux_PI1_skip]
        apply ih
        rw [ht] at hs
        simp only [List.length_cons] at hs
        omega
      · have hp1 : List.isPrefixOf ['<', 'P', 'I', '1', '>'] (c :: cs) = false :=
          Bool.eq_false_iff.mpr hp
        rw [replaceAux_off c cs hp1, containsAux, Bool.or_eq_false_iff]
        constructor
        · by_contra hq
          simp only [Bool.not_eq_false] at hq
          exact hp (replaceAux_no_new c cs hq)
        · apply ih
          simp only [List.length_cons] at hs
          omega

theorem Replace_no_INDENT_1 (s : String) :
    Contains (Replace s INDENT_1 INDENT_2) INDENT_1 = false :=
  replaceAux_no_PI1 s.data.length s.data (Nat.le_refl _)

/-! ### C7 -/

theorem cleanLoop_acc (xs : List String) :
    ∀ (b : Bool) (temp : TextContent), cleanLoop b temp xs = temp ++ cleanLoop b [] xs := by
  induction xs with
  | nil => intro b temp; simp [cleanLoop]
  | cons x rest ih =>
    intro b temp
    have e1 : ∀ y : String, cleanLoop false (temp ++ [y]) rest
        = temp ++ cleanLoop false ([] ++ [y]) rest := by
      intro y
      rw [ih false (temp ++ [y]), ih false ([] ++ [y])]
      simp
    have e2 : cleanLoop b (temp ++ [x]) rest = temp ++ cleanLoop b ([] ++ [x]) rest := by
      rw [ih b (temp ++ [x]), ih b ([] ++ [x])]
      simp
    unfold cleanLoop
    by_cases hx : Contains x INDENT_1 = true
    · cases b
      · simp only [hx, if_true, Bool.false_eq_true, if_false, TextContent.Append]
        exact e1 _
      · simp only [hx, if_true, TextContent.Append]
        exact e1 _
    · simp only [hx, if_false, TextContent.Append]
      exact e2

/-- One round of the loop of `CleanIndentTags`, from the empty `temp`. -/
theorem cleanLoop_cons (b : Bool) (x : String) (rest : List String) :
    cleanLoop b [] (x :: rest)
      = (if Contains x INDENT_1 = true then
            (if b = true then x else Replace x INDENT_1 INDENT_2)
          else x)
        :: cleanLoop (b && !Contains x INDENT_1) [] rest := by
  rw [cleanLoop]
  by_cases hx : Contains x INDENT_1 = true
  · cases b
    · simp only [hx, if_true, Bool.false_eq_true, if_false, TextContent.Append]
      rw [cleanLoop_acc]
      simp
    · simp only [hx, if_true, TextContent.Append]
      rw [cleanLoop_acc]
      simp
  · have hx0 : Contains x INDENT_1 = false := Bool.eq_false_iff.mpr hx
    simp only [hx0, Bool.false_eq_true, if_false, TextContent.Append]
    rw [cleanLoop_acc]
    simp

theorem cleanLoop_idem (xs : List String) :
    ∀ b : Bool, cleanLoop b [] (cleanLoop b [] xs) = cleanLoop b [] xs := by
  induction xs with
  | nil => intro b; rfl
  | cons x rest ih =>
    intro b
    by_cases hx : Contains x INDENT_1 = true
    · cases b
      · have e : cleanLoop false [] (x :: rest)
            = Replace x INDENT_1 INDENT_2 :: cleanLoop false [] rest := by
          rw [cleanLoop_cons]; simp [hx]
        rw [e, cleanLoop_cons, Replace_no_INDENT_1]
        simp [ih false]
      · have e : cleanLoop true [] (x :: rest) = x :: cleanLoop false [] rest := by
          rw [cleanLoop_cons]; simp [hx]
        rw [e, cleanLoop_cons]
        simp [hx, ih false]
    · have hx0 : Contains x INDENT_1 = false := Bool.eq_false_iff.mpr hx
      have e : cleanLoop b [] (x :: rest) = x :: cleanLoop b [] rest := by
        rw [cleanLoop_cons]; simp [hx0]
      rw [e, cleanLoop_cons]
      simp [hx0, ih b]

/-- C7. Indent normalization idempotence: for every verse record (any token list, any
value of `ContainsPoetry`), `CleanIndent` applied twice gives the same record, so the same
token list, as `CleanIndent` applied once. -/
theorem C7_clean_indent_idempotent (Verse : VerseData) :
    Verse.CleanIndent.CleanIndent = Verse.CleanIndent
      ∧ Verse.CleanIndent.CleanIndent.Content = Verse.CleanIndent.Content := by
  have h : Verse.CleanIndent.CleanIndent = Verse.CleanIndent := by
    cases hp : Verse.ContainsPoetry
    · simp [VerseData.CleanIndent, hp]
    · simp [VerseData.CleanIndent, hp, VerseData.CleanIndentTags, cleanLoop_idem]
  exact ⟨h, by rw [h]⟩

/-! ### C8 -/

theorem startsNone_isPrefixOf (old : List Char) (c : Char) (cs u : List Char)
    (h : startsNone old (c :: cs) = true) : old.isPrefixOf (c :: cs ++ u) = false := by
  simp only [startsNone, Bool.and_eq_true, Bool.not_eq_true', List.cons_append] at h ⊢
  obtain ⟨⟨h1, h2⟩, _⟩ := h
  by_contra hc
  have hc1 : old <+: (c :: cs) ++ u := by
    have : old.isPrefixOf (c :: cs ++ u) = true := by
      cases hq : old.isPrefixOf (c :: cs ++ u)
      · exact absurd hq hc
      · rfl
    rwa [List.isPrefixOf_iff_prefix] at this
  rcases List.prefix_or_prefix_of_prefix hc1 (List.prefix_append (c :: cs) u) with hp | hp
  · have : old.isPrefixOf (c :: cs) = true := List.isPrefixOf_iff_prefix.mpr hp
    rw [h1] at this
    exact Bool.false_ne_true this
  · have : (c :: cs).isPrefixOf old = true := List.isPrefixOf_iff_prefix.mpr hp
    rw [h2] at this
    exact Bool.false_ne_true this

theorem startsNone_tail (old : List Char) (c : Char) (cs : List Char)
    (h : startsNone old (c :: cs) = true) : startsNone old cs = true := by
  simp only [startsNone, Bool.and_eq_true] at h
  exact h.2

theorem replaceAux_startsNone (t u : List Char)
    (h : startsNone ['<', 'P', 'I', '1', '>'] t = true) :
    replaceAux ['<', 'P', 'I', '1', '>'] ['<', 'P', 'I', '2', '>'] 0 (t ++ u)
      = t ++ replaceAux ['<', 'P', 'I', '1', '>'] ['<', 'P', 'I', '2', '>'] 0 u := by
  induction t with
  | nil => rfl
  | cons c cs ih =>
    have hp := startsNone_isPrefixOf _ c cs u h
    rw [List.cons_append, replaceAux_off c (cs ++ u) hp, ih (startsNone_tail _ c cs h)]
    rfl

theorem keepFirstAux_startsNone (t u : List Char)
    (h : startsNone ['<', 'P', 'I', '1', '>'] t = true) :
    keepFirstAux ['<', 'P', 'I', '1', '>'] ['<', 'P', 'I', '2', '>'] (t ++ u)
      = t ++ keepFirstAux ['<', 'P', 'I', '1', '>'] ['<', 'P', 'I', '2', '>'] u := by
  induction t with
  | nil => rfl
  | cons c cs ih =>
    have hp := startsNone_isPrefixOf _ c cs u h
    rw [List.cons_append, keepFirstAux]
    simp only [List.cons_append] at hp
    simp only [hp, Bool.false_eq_true, if_false]
    rw [ih (startsNone_tail _ c cs h)]
    rfl

theorem keepFirstAux_at (u : List Char) :
    keepFirstAux ['<', 'P', 'I', '1', '>'] ['<', 'P', 'I', '2', '>']
        ('<' :: 'P' :: 'I' :: '1' :: '>' :: u)
      = '<' :: 'P' :: 'I' :: '1' :: '>'
          :: replaceAux ['<', 'P', 'I', '1', '>'] ['<', 'P', 'I', '2', '>'] 0 u := by
  simp [keepFirstAux, List.isPrefixOf]

theorem startsNone_not_contains (t : List Char)
    (h : startsNone ['<', 'P', 'I', '1', '>'] t = true) :
    containsAux ['<', 'P', 'I', '1', '>'] t = false := by
  induction t with
  | nil => decide
  | cons c cs ih =>
    rw [containsAux, ih (startsNone_tail _ c cs h)]
    simp only [startsNone, Bool.and_eq_true, Bool.not_eq_true'] at h
    rw [h.1.1]
    rfl

theorem str_data_cons (x : String) (xs : List String) :
    (str (x :: xs)).data = x.data ++ (str xs).data := by
  simp [str]

/-- After the first `<PI1>` token the loop replaces in every token; on the rendered text
this is the replacement in the whole text. -/
theorem cleanLoop_false_rendered (toks : List String)
    (h : ∀ t ∈ toks, t = INDENT_1 ∨ noIndent1Starts t = true) :
    (str (cleanLoop false [] toks)).data
      = replaceAux ['<', 'P', 'I', '1', '>'] ['<', 'P', 'I', '2', '>'] 0 (str toks).data := by
  induction toks with
  | nil => rfl
  | cons x rest ih =>
    have ih1 := ih (fun t ht => h t (List.mem_cons_of_mem _ ht))
    rw [cleanLoop_cons, str_data_cons, str_data_cons]
    simp only [Bool.false_and]
    rw [ih1]
    rcases h x (List.mem_cons_self _ _) with hx | hx
    · subst hx
      have e : Contains INDENT_1 INDENT_1 = true := by decide
      simp only [e, if_true, Bool.false_eq_true, if_false]
      exact (replaceAux_at _).symm
    · have hc : Contains x INDENT_1 = false := startsNone_not_contains x.data hx
      simp only [hc, Bool.false_eq_true, if_false]
      exact (replaceAux_startsNone x.data _ hx).symm

theorem cleanLoop_true_rendered (toks : List String)
    (h : ∀ t ∈ toks, t = INDENT_1 ∨ noIndent1Starts t = true) :
    (str (cleanLoop true [] toks)).data
      = keepFirstAux ['<', 'P', 'I', '1', '>'] ['<', 'P', 'I', '2', '>'] (str toks).data := by
  induction toks with
  | nil => rfl
  | cons x rest ih =>
    have hrest : ∀ t ∈ rest, t = INDENT_1 ∨ noIndent1Starts t = true :=
      fun t ht => h t (List.mem_cons_of_mem _ ht)
    rw [cleanLoop_cons, str_data_cons, str_data_cons]
    rcases h x (List.mem_cons_self _ _) with hx | hx
    · subst hx
      have e : Contains INDENT_1 INDENT_1 = true := by decide
      simp only [e, if_true, Bool.not_true, Bool.and_false]
      rw [cleanLoop_false_rendered rest hrest]
      exact (keepFirstAux_at _).symm
    · have hc : Contains x INDENT_1 = false := startsNone_not_contains x.data hx
      simp only [hc, Bool.false_eq_true, if_false, Bool.not_false, Bool.and_true]
      rw [ih hrest]
      exact (keepFirstAux_startsNone x.data _ hx).symm

/-- C8 as stated fails: the loop works token by token, and keeps the whole of the first
token that contains `<PI1>`.  For the one-token list `["<PI1><PI1>"]` the rendered text
stays `<PI1><PI1>`, while leaving the first occurrence and rewriting the later one gives
`<PI1><PI2>`. -/
theorem C8_indent_result_counterexample :
    (VerseData.CleanIndentTags ⟨0, "", true, ["<PI1><PI1>"]⟩).asString = "<PI1><PI1>"
      ∧ specNormalize (VerseData.asString ⟨0, "", true, ["<PI1><PI1>"]⟩) = "<PI1><PI2>"
      ∧ (VerseData.CleanIndentTags ⟨0, "", true, ["<PI1><PI1>"]⟩).asString
          ≠ specNormalize (VerseData.asString ⟨0, "", true, ["<PI1><PI1>"]⟩) := by
  decide

/-- C8, amended. Indent normalization result: for every verse whose tokens are each
either exactly `<PI1>` or a token in which no occurrence of `<PI1>` begins (complete or cut
off by the end of the token), the rendered text after `CleanIndentTags` is the rendered
text before it with the first occurrence of `<PI1>` left in place and every later
occurrence rewritten to `<PI2>`; for a poetic verse this is the result of `CleanIndent`. -/
theorem C8_indent_result_amended (Verse : VerseData)
    (h : ∀ t ∈ Verse.Content, t = INDENT_1 ∨ noIndent1Starts t = true) :
    Verse.CleanIndentTags.asString = specNormalize Verse.asString
      ∧ (Verse.ContainsPoetry = true →
          Verse.CleanIndent.asString = specNormalize Verse.asString) := by
  have h1 : Verse.CleanIndentTags.asString = specNormalize Verse.asString := by
    have hd := cleanLoop_true_rendered Verse.Content h
    unfold VerseData.CleanIndentTags VerseData.asString specNormalize
    exact String.ext hd
  refine ⟨h1, ?_⟩
  intro hp
  simp only [VerseData.CleanIndent, hp, if_true]
  exact h1

/-- C8, amended, at a verse of two poetry lines. -/
theorem C8_indent_result_amended_witness :
    (VerseData.CleanIndentTags
        ⟨0, "", true, ["<PI1>", "a", "<CI>", "<PI1>", "b", "<CI>"]⟩).asString
      = "<PI1>a<CI><PI2>b<CI>" := by
  have h := (C8_indent_result_amended
    ⟨0, "", true, ["<PI1>", "a", "<CI>", "<PI1>", "b", "<CI>"]⟩ (by decide)).1
  rw [h]
  decide

/-! ### The finalized verses only grow -/

theorem grows_refl (vs : List String) : grows vs vs :=
  ⟨Nat.le_refl _, fun _ _ => rfl, fun a h => ⟨"", by simpa using h⟩⟩

theorem grows_trans {a b c : List String} (h1 : grows a b) (h2 : grows b c) : grows a c := by
  obtain ⟨l1, f1, e1⟩ := h1
  obtain ⟨l2, f2, e2⟩ := h2
  refine ⟨Nat.le_trans l1 l2, ?_, ?_⟩
  · intro i hi
    rw [f2 i (by omega), f1 i hi]
  · intro x hx
    obtain ⟨s1, hs1⟩ := e1 x hx
    by_cases hlen : a.length - 1 + 1 < b.length
    · exact ⟨s1, by rw [f2 _ hlen, hs1]⟩
    · have hpos : a.length - 1 < a.length := by
        by_contra hn
        have : a[a.length - 1]? = none := List.getElem?_eq_none (by omega)
        rw [this] at hx
        exact Option.noConfusion hx
      have hab : a.length - 1 = b.length - 1 := by omega
      rw [hab] at hs1
      obtain ⟨s2, hs2⟩ := e2 _ hs1
      exact ⟨s1 ++ s2, by rw [hab, hs2, String.append_assoc]⟩

theorem grows_concat (vs : List String) (x : String) : grows vs (vs ++ [x]) := by
  refine ⟨by simp, ?_, ?_⟩
  · intro i hi
    exact List.getElem?_append_left (by omega)
  · intro a ha
    have hpos : vs.length - 1 < vs.length := by
      by_contra hn
      have : vs[vs.length - 1]? = none := List.getElem?_eq_none (by omega)
      rw [this] at ha
      exact Option.noConfusion ha
    exact ⟨"", by rw [List.getElem?_append_left hpos, ha]; simp⟩

theorem grows_appendLast (vs : List String) (t : String) : grows vs (appendLast vs t) := by
  rcases List.eq_nil_or_concat vs with h | ⟨init, last, h⟩
  · subst h; exact grows_refl _
  · rw [List.concat_eq_append] at h
    subst h
    rw [appendLast_concat]
    refine ⟨by simp, ?_, ?_⟩
    · intro i hi
      have hi2 : i < init.length := by simp at hi; exact hi
      rw [List.getElem?_append_left hi2, List.getElem?_append_left hi2]
    · intro a ha
      have e : (init ++ [last]).length - 1 = init.length := by simp
      rw [e] at ha ⊢
      rw [List.getElem?_concat_length] at ha
      rw [List.getElem?_concat_length]
      exact ⟨t, by rw [Option.some.inj ha]⟩

theorem nodeStep_grows (U : String → String) (g : Globals) (s : Selection) :
    grows g.Chapter.Verses (nodeStep U g s).Chapter.Verses := by
  unfold nodeStep paragraphVerses
  simp only
  split
  · split
    · exact grows_appendLast _ _
    · exact grows_refl _
  · exact grows_refl _

theorem contentSteps_grows (U : String → String) (sels : List Selection) :
    ∀ g : Globals, grows g.Chapter.Verses (contentSteps U g sels).Chapter.Verses := by
  induction sels with
  | nil => intro g; exact grows_refl _
  | cons s rest ih =>
    intro g
    rw [contentSteps]
    split
    · exact grows_trans (nodeStep_grows U g s) (ih _)
    · exact ih _

theorem verseStep_grows (U : String → String) (g : Globals) (v : Nat) :
    grows g.Chapter.Verses (verseStep U g v).Chapter.Verses := by
  have h := contentSteps_grows U (FindClass g.Chapter.Doc "text") (VerseData.GenHtmlClass g v)
  exact grows_trans h (grows_concat _ _)

theorem verseSteps_grows (U : String → String) (vs : List Nat) :
    ∀ g : Globals, grows g.Chapter.Verses (verseSteps U g vs).Chapter.Verses := by
  induction vs with
  | nil => intro g; exact grows_refl _
  | cons v rest ih =>
    intro g
    rw [verseSteps]
    exact grows_trans (verseStep_grows U g v) (ih _)

/-! ### The state between two verses -/

theorem contentSteps_text (U : String → String) (sels : List Selection) :
    ∀ g : Globals, g.Text = [] → (contentSteps U g sels).Text = [] := by
  induction sels with
  | nil => intro g h; exact h
  | cons s rest ih =>
    intro g h
    rw [contentSteps]
    split
    · exact ih _ rfl
    · exact ih _ h

theorem verseStep_text (U : String → String) (g : Globals) (v : Nat) (h : g.Text = []) :
    (verseStep U g v).Text = [] :=
  contentSteps_text U _ (VerseData.GenHtmlClass g v) h

theorem verseSteps_clear (U : String → String) (vs : List Nat) :
    ∀ g : Globals, g.Verse.Content = [] → g.Text = [] →
      (verseSteps U g vs).Verse.Content = [] ∧ (verseSteps U g vs).Text = [] := by
  induction vs with
  | nil => intro g h1 h2; exact ⟨h1, h2⟩
  | cons v rest ih =>
    intro g _ h2
    rw [verseSteps]
    exact ih _ rfl (verseStep_text U g v h2)

theorem verseSteps_append (U : String → String) (a b : List Nat) :
    ∀ g : Globals, verseSteps U g (a ++ b) = verseSteps U (verseSteps U g a) b := by
  induction a with
  | nil => intro g; rfl
  | cons v rest ih =>
    intro g
    simp only [List.cons_append, verseSteps]
    exact ih _

/-! ### The nodes of one verse -/

theorem contentSteps_filter (U : String → String) (sels : List Selection) :
    ∀ g : Globals,
      contentSteps U g sels
        = (sels.filter (fun s => decide (s.node.class = g.Verse.HtmlClass))).foldl
            (nodeStep U) g := by
  induction sels with
  | nil => intro g; rfl
  | cons s rest ih =>
    intro g
    rw [contentSteps]
    by_cases h : s.node.class = g.Verse.HtmlClass
    · simp only [h, if_true, List.filter_cons, decide_True, List.foldl_cons]
      rw [ih]
      rfl
    · simp only [h, if_false, List.filter_cons, decide_False, Bool.false_eq_true]
      exact ih g

theorem nodeTokens_ne_nil (U : String → String) (F : List (String × String))
    (Text : TextContent) (s : Selection) : nodeTokens U F Text s ≠ [] := by
  unfold nodeTokens
  split
  · simp
  · split
    · simp
    · split <;> simp

/-- Once the verse has a token, the nodes that follow leave the finalized verses alone and
only append tokens. -/
theorem nodeSteps_after_first (U : String → String) (rest : List Selection) :
    ∀ g : Globals, g.Verse.Content ≠ [] →
      (rest.foldl (nodeStep U) g).Chapter.Verses = g.Chapter.Verses
        ∧ ∃ more, (rest.foldl (nodeStep U) g).Verse.Content = g.Verse.Content ++ more := by
  induction rest with
  | nil => intro g _; exact ⟨rfl, [], by simp⟩
  | cons s rest ih =>
    intro g hne
    rw [List.foldl_cons]
    have hne1 : (nodeStep U g s).Verse.Content ≠ [] := by
      simp [nodeStep, nodeTokens_ne_nil]
    obtain ⟨h1, more, h2⟩ := ih (nodeStep U g s) hne1
    refine ⟨?_, ?_⟩
    · rw [h1]
      simp [nodeStep, paragraphVerses, hne]
    · refine ⟨((if ruleId s = "paragraph" then paragraphTokens g.Verse.Content else []) ++
        nodeTokens U g.Chapter.Footnotes g.Text s) ++ more, ?_⟩
      rw [h2]
      simp only [nodeStep, List.append_assoc]

theorem cleanIndent_head (V : VerseData) (t0 : String) (xs : List String)
    (h : V.Content = t0 :: xs) : ∃ ys, V.CleanIndent.Content = t0 :: ys := by
  unfold VerseData.CleanIndent
  split
  · refine ⟨cleanLoop (true && !Contains t0 INDENT_1) [] xs, ?_⟩
    simp only [VerseData.CleanIndentTags, h, cleanLoop_cons]
    simp
  · exact ⟨xs, h⟩

/-! ### C3 -/

/-- The verse whose first node reaches the paragraph case of its genre rule: the break
goes to the end of the last finalized verse, and the verse string begins with the first
token of the node itself. -/
theorem verseStep_opener (U : String → String) (g : Globals) (N : Nat) (s : Selection)
    (rest : List Selection) (t0 : String) (xs : List String)
    (hC : g.Verse.Content = []) (hnodes : verseNodes g N = s :: rest)
    (hid : ruleId s = "paragraph")
    (htok : nodeTokens U g.Chapter.Footnotes g.Text s = t0 :: xs) :
    ∃ tail, (verseStep U g N).Chapter.Verses
      = appendLast g.Chapter.Verses PARAGRAPH_BREAK ++ [t0 ++ tail] := by
  have hf : contentSteps U (VerseData.GenHtmlClass g N) (FindClass g.Chapter.Doc "text")
      = (s :: rest).foldl (nodeStep U) (VerseData.GenHtmlClass g N) := by
    rw [contentSteps_filter, ← hnodes]
    rfl
  have h1c : (nodeStep U (VerseData.GenHtmlClass g N) s).Verse.Content = t0 :: xs := by
    simp [nodeStep, VerseData.GenHtmlClass, hC, hid, paragraphTokens, htok]
  have h1v : (nodeStep U (VerseData.GenHtmlClass g N) s).Chapter.Verses
      = appendLast g.Chapter.Verses PARAGRAPH_BREAK := by
    simp [nodeStep, VerseData.GenHtmlClass, hC, hid, paragraphVerses]
  obtain ⟨h2v, more, h2c⟩ := nodeSteps_after_first U rest
    (nodeStep U (VerseData.GenHtmlClass g N) s) (by rw [h1c]; simp)
  rw [h1c] at h2c
  rw [h1v] at h2v
  obtain ⟨ys, hys⟩ := cleanIndent_head
    ((s :: rest).foldl (nodeStep U) (VerseData.GenHtmlClass g N)).Verse t0 (xs ++ more)
    (by rw [List.foldl_cons, h2c]; rfl)
  refine ⟨str ys, ?_⟩
  simp only [verseStep, hf, ChapterData.Append, VerseData.asString, hys, str]
  rw [List.foldl_cons, h2v]

theorem range'_split (N m : Nat) (hN : 1 ≤ N) (hm : N ≤ m) :
    List.range' 1 m = List.range' 1 (N - 1) ++ (N :: List.range' (N + 1) (m - N)) := by
  have h1 : List.range' 1 m = List.range' 1 (N - 1) ++ List.range' (1 + (N - 1)) (m - N + 1) := by
    rw [List.range'_append_1]
    congr 1
    omega
  have h2 : 1 + (N - 1) = N := by omega
  rw [h1, h2, List.range'_succ]

theorem startsWith_append (first tail p : String) (h1 : startsWith first p = false)
    (h2 : startsWith p first = false) : startsWith (first ++ tail) p = false := by
  unfold startsWith at *
  rw [String.data_append]
  cases hq : p.data.isPrefixOf (first.data ++ tail.data)
  · rfl
  · exfalso
    have hp : p.data <+: first.data ++ tail.data := List.isPrefixOf_iff_prefix.mp hq
    rcases List.prefix_or_prefix_of_prefix hp (List.prefix_append first.data tail.data) with h | h
    · rw [List.isPrefixOf_iff_prefix.mpr h] at h1
      exact Bool.noConfusion h1
    · rw [List.isPrefixOf_iff_prefix.mpr h] at h2
      exact Bool.noConfusion h2

/-- C3 as stated fails.  In the chapter `emptyOpenerDoc` the first node of verse 2 is a
paragraph-opener, and the final string of verse 2 is `<CM>b`, which starts with `<CM>`:
the opener flattens to the empty token, and the paragraph-opener after it appends `<CM>`
to the verse because the token before it is not `<Ts>`. -/
theorem C3_paragraph_relocation_counterexample :
    (∃ s rest, verseNodes (initial emptyOpenerDoc "Gen-1-" 2 []) 2 = s :: rest
        ∧ s.node.id = "paragraph" ∧ classParents s = "")
      ∧ (ChapterData.AddVerses asciiUpper (initial emptyOpenerDoc "Gen-1-" 2 [])).map
          (fun g => g.Chapter.Verses) = some ["a<CM>", "<CM>b"]
      ∧ startsWith "<CM>b" PARAGRAPH_BREAK = true := by
  refine ⟨⟨_, _, rfl, rfl, rfl⟩, ?_, ?_⟩ <;> decide

/-- C3, amended. Paragraph relocation over the whole pipeline: take a chapter processed
from the empty list of finalized verses, and a verse `N` whose first processed node is a
paragraph-opener (id "paragraph") in prose or first-line poetry.  `AddVerses` returns, and
the final string of verse `N` begins with the first token of that node itself, `<PI1>` in
first-line poetry and the flattened text of its contents in prose: no `<CM>` is put before
it, so the string does not start with `<CM>` unless that first token does or is a
beginning of `<CM>` (the empty token is one).  For `N > 1` the final string of verse `N-1`
ends with `<CM>`.  For `N = 1` the call of `Paragraph` for the opener changes nothing. -/
theorem C3_paragraph_relocation_amended (ToUpper : String → String) (g : Globals) (N : Nat)
    (s : Selection) (rest : List Selection)
    (hV : g.Chapter.Verses = []) (hC : g.Verse.Content = []) (hT : g.Text = [])
    (hN : 1 ≤ N) (hNn : (N : Int) ≤ g.Chapter.VerseIndex)
    (hnodes : verseNodes g N = s :: rest) (hid : s.node.id = "paragraph")
    (hgenre : classParents s ≠ POETRY_LINE_INDENTED) :
    ∃ g1 tail, ChapterData.AddVerses ToUpper g = some g1
      ∧ g1.Chapter.Verses[N - 1]? = some (openerToken ToUpper g.Chapter.Footnotes s ++ tail)
      ∧ (startsWith (openerToken ToUpper g.Chapter.Footnotes s) PARAGRAPH_BREAK = false →
          startsWith PARAGRAPH_BREAK (openerToken ToUpper g.Chapter.Footnotes s) = false →
          startsWith (openerToken ToUpper g.Chapter.Footnotes s ++ tail) PARAGRAPH_BREAK
            = false)
      ∧ (1 < N → ∃ w, g1.Chapter.Verses[N - 2]? = some (w ++ PARAGRAPH_BREAK))
      ∧ (N = 1 → VerseData.Paragraph (VerseData.GenHtmlClass g 1)
          = some (VerseData.GenHtmlClass g 1)) := by
  unfold openerToken
  -- the loop, split at verse N
  have hm : N ≤ g.Chapter.VerseIndex.toNat := by omega
  have hsplit := range'_split N g.Chapter.VerseIndex.toNat hN hm
  have hrun : ChapterData.AddVerses ToUpper g
      = some (verseSteps ToUpper
          (verseStep ToUpper (verseSteps ToUpper g (List.range' 1 (N - 1))) N)
          (List.range' (N + 1) (g.Chapter.VerseIndex.toNat - N))) := by
    rw [ChapterData.AddVerses_eq, hsplit, verseSteps_append]
    rfl
  -- the state in which verse N starts
  have hsame := verseSteps_sameChapter ToUpper (List.range' 1 (N - 1)) g
  have hclear := verseSteps_clear ToUpper (List.range' 1 (N - 1)) g hC hT
  have hlen := verseSteps_verses_length ToUpper (List.range' 1 (N - 1)) g
  rw [hV] at hlen
  simp only [List.length_nil, List.length_range', Nat.zero_add] at hlen
  generalize hg0 : verseSteps ToUpper g (List.range' 1 (N - 1)) = g0 at hrun hsame hclear hlen
  have hnodes0 : verseNodes g0 N = s :: rest := by
    rw [← hnodes]
    unfold verseNodes
    rw [hsame.1, hsame.2.1]
  have hrule : ruleId s = "paragraph" := by
    simp [ruleId, hgenre, hid]
  have htok : nodeTokens ToUpper g0.Chapter.Footnotes g0.Text s
      = (if classParents s = POETRY_LINE_NORMAL then INDENT_1
            else flatten ToUpper g.Chapter.Footnotes [] s.node.Contents)
          :: (if classParents s = POETRY_LINE_NORMAL then
                [flatten ToUpper g.Chapter.Footnotes [] s.node.Contents, INDENT_CLOSE]
              else []) := by
    rw [hclear.2, hsame.2.2.2]
    unfold nodeTokens
    rw [hrule]
    by_cases hl : classParents s = POETRY_LINE_NORMAL
    · simp [hl, title_ne_paragraph, Ne.symm title_ne_paragraph]
    · simp [hl, hgenre, title_ne_paragraph, Ne.symm title_ne_paragraph]
  obtain ⟨tail, hstep⟩ := verseStep_opener ToUpper g0 N s rest _ _ hclear.1 hnodes0 hrule htok
  -- the verses that follow
  have hgrow := verseSteps_grows ToUpper
    (List.range' (N + 1) (g.Chapter.VerseIndex.toNat - N)) (verseStep ToUpper g0 N)
  have hlenN : (verseStep ToUpper g0 N).Chapter.Verses.length = N := by
    rw [verseStep_verses_length, hlen]
    omega
  obtain ⟨_, hfix, hlast⟩ := hgrow
  rw [hlenN] at hfix hlast
  have hatN : (verseStep ToUpper g0 N).Chapter.Verses[N - 1]?
      = some ((if classParents s = POETRY_LINE_NORMAL then INDENT_1
            else flatten ToUpper g.Chapter.Footnotes [] s.node.Contents) ++ tail) := by
    rw [hstep]
    have hl2 : (appendLast g0.Chapter.Verses PARAGRAPH_BREAK).length = N - 1 := by
      rw [appendLast_length, hlen]
    rw [← hl2, List.getElem?_concat_length]
  obtain ⟨suf, hsuf⟩ := hlast _ hatN
  refine ⟨_, tail ++ suf, hrun, ?_, ?_, ?_, ?_⟩
  · rw [hsuf, String.append_assoc]
  · intro h1 h2
    exact startsWith_append _ _ _ h1 h2
  · intro h1N
    rcases List.eq_nil_or_concat g0.Chapter.Verses with hnil | ⟨init, last, hcc⟩
    · rw [hnil] at hlen
      simp only [List.length_nil] at hlen
      omega
    · rw [List.concat_eq_append] at hcc
      rw [hcc, appendLast_concat] at hstep
      have hli : init.length = N - 2 := by
        rw [hcc] at hlen
        simp only [List.length_append, List.length_singleton] at hlen
        omega
      refine ⟨last, ?_⟩
      rw [hfix (N - 2) (by omega), hstep, List.append_assoc,
        List.getElem?_append_right (by omega), hli]
      simp
  · intro _
    rw [VerseData.Paragraph_eq]
    obtain ⟨⟨Doc, H, VI, Vs, F⟩, ⟨Nn, HC, CP, C⟩, T⟩ := g
    simp only at hV hC
    subst hV hC
    rfl

/-- C3, amended, at the chapter `twoParagraphsDoc` and verse 2: the final strings are
`In the beginning<CM>` and `God created.`. -/
theorem C3_paragraph_relocation_amended_witness :
    ∃ g1 tail, ChapterData.AddVerses asciiUpper (initial twoParagraphsDoc "Gen-1-" 2 []) = some g1
      ∧ g1.Chapter.Verses[1]? = some ("God created." ++ tail)
      ∧ startsWith ("God created." ++ tail) "<CM>" = false
      ∧ ∃ w, g1.Chapter.Verses[0]? = some (w ++ "<CM>") := by
  obtain ⟨g1, tail, h1, h2, h3, h4, _⟩ := C3_paragraph_relocation_amended asciiUpper
    (initial twoParagraphsDoc "Gen-1-" 2 []) 2 _ _ rfl rfl rfl (by decide) (by decide)
    rfl rfl (by decide)
  exact ⟨g1, tail, h1, h2, h3 (by decide) (by decide), h4 (by decide)⟩

/-! ### C1: the counterexample -/

/-- C1 as stated fails.  In `splitMarkerDoc` no text node, and not the text of the whole
document, contains a control marker, yet the string of verse 1 is `<TS>`, an opened title
that is never closed: the verse is the concatenation of the texts of its two nodes.  In
`smallCapsMarkerDoc` the marker-free text `<ts>` is upper-cased to `<TS>`. -/
theorem C1_tag_balance_counterexample :
    (allTextsList markerFree splitMarkerDoc = true
        ∧ markerFree (textOfNodes splitMarkerDoc) = true
        ∧ (ChapterData.AddVerses asciiUpper (initial splitMarkerDoc "Gen-1-" 1 [])).map
            (fun g => g.Chapter.Verses) = some ["<TS>"]
        ∧ wellNested "<TS>" = false)
      ∧ (allTextsList markerFree smallCapsMarkerDoc = true
        ∧ markerFree (textOfNodes smallCapsMarkerDoc) = true
        ∧ (ChapterData.AddVerses asciiUpper (initial smallCapsMarkerDoc "Gen-1-" 1 [])).map
            (fun g => g.Chapter.Verses) = some ["<TS>"]) := by
  decide
/-! ### Marker occurrences of concatenated strings -/

theorem markAt_of_ne (c : Char) (cs : List Char) (h : c ≠ '<') : markAt (c :: cs) = none := by
  have h1 : ('<' == c) = false := by
    simp only [beq_eq_false_iff_ne, ne_eq]
    exact fun e => h e.symm
  simp [markAt, TITLE_OPEN, TITLE_CLOSE, WOJ_OPEN, WOJ_CLOSE, FOOTNOTE_OPEN, FOOTNOTE_CLOSE,
    INDENT_1, INDENT_2, INDENT_3, INDENT_CLOSE, List.isPrefixOf, h1]

theorem marks_of_ne (c : Char) (cs : List Char) (h : c ≠ '<') : marks (c :: cs) = marks cs := by
  rw [marks, markAt_of_ne c cs h]

theorem noLt_cons (c : Char) (cs : List Char) :
    (c :: cs).all (fun c => decide (c ≠ '<')) = true
      ↔ c ≠ '<' ∧ cs.all (fun c => decide (c ≠ '<')) = true := by
  simp

theorem marks_noLt (s : List Char) (h : s.all (fun c => decide (c ≠ '<')) = true)
    (rest : List Char) : marks (s ++ rest) = marks rest := by
  induction s with
  | nil => rfl
  | cons c cs ih =>
    rw [noLt_cons] at h
    rw [List.cons_append, marks_of_ne c _ h.1]
    exact ih h.2

theorem Indep_nil : Indep [] := fun _ => rfl

theorem Indep_append {a b : List Char} (ha : Indep a) (hb : Indep b) : Indep (a ++ b) := by
  intro rest
  rw [List.append_assoc, ha, hb, ha, List.append_assoc]

theorem marks_append {a : List Char} (ha : Indep a) (b : List Char) :
    marks (a ++ b) = marks a ++ marks b := ha b

theorem BalSeg_nil : BalSeg [] := fun _ _ => rfl

theorem BalSeg_append {a b : List Mark} (ha : BalSeg a) (hb : BalSeg b) : BalSeg (a ++ b) := by
  intro st rest
  rw [List.append_assoc, ha, hb]

theorem BalSeg_wrap (k : Kind) {a : List Mark} (ha : BalSeg a) :
    BalSeg (Mark.opening k :: (a ++ [Mark.closing k])) := by
  intro st rest
  have h1 : (Mark.opening k :: (a ++ [Mark.closing k])) ++ rest
      = Mark.opening k :: (a ++ (Mark.closing k :: rest)) := by simp
  rw [h1]
  cases st <;> simp [nested, ha (k :: _) (Mark.closing k :: rest)]

theorem noLt_Indep (s : List Char) (h : s.all (fun c => decide (c ≠ '<')) = true) :
    Indep s ∧ marks s = [] := by
  have h0 : marks s = [] := by
    have := marks_noLt s h []
    simpa using this
  refine ⟨?_, h0⟩
  intro rest
  rw [marks_noLt s h rest, h0]
  rfl

/-- The markers: each lexes as itself whatever follows. -/
theorem marks_marker :
    (∀ r, marks ('<' :: 'T' :: 'S' :: '>' :: r) = Mark.opening Kind.title :: marks r)
      ∧ (∀ r, marks ('<' :: 'T' :: 's' :: '>' :: r) = Mark.closing Kind.title :: marks r)
      ∧ (∀ r, marks ('<' :: 'F' :: 'R' :: '>' :: r) = Mark.opening Kind.woj :: marks r)
      ∧ (∀ r, marks ('<' :: 'F' :: 'r' :: '>' :: r) = Mark.closing Kind.woj :: marks r)
      ∧ (∀ r, marks ('<' :: 'R' :: 'F' :: '>' :: r) = Mark.opening Kind.footnote :: marks r)
      ∧ (∀ r, marks ('<' :: 'R' :: 'f' :: '>' :: r) = Mark.closing Kind.footnote :: marks r)
      ∧ (∀ r, marks ('<' :: 'P' :: 'I' :: '1' :: '>' :: r) = Mark.opening Kind.indent :: marks r)
      ∧ (∀ r, marks ('<' :: 'P' :: 'I' :: '2' :: '>' :: r) = Mark.opening Kind.indent :: marks r)
      ∧ (∀ r, marks ('<' :: 'P' :: 'I' :: '3' :: '>' :: r) = Mark.opening Kind.indent :: marks r)
      ∧ (∀ r, marks ('<' :: 'C' :: 'I' :: '>' :: r) = Mark.closing Kind.indent :: marks r)
      ∧ (∀ r, marks ('<' :: 'C' :: 'M' :: '>' :: r) = marks r) := by
  refine ⟨?_, ?_, ?_, ?_, ?_, ?_, ?_, ?_, ?_, ?_, ?_⟩ <;> intro r <;>
    simp [marks, markAt, TITLE_OPEN, TITLE_CLOSE, WOJ_OPEN, WOJ_CLOSE, FOOTNOTE_OPEN,
      FOOTNOTE_CLOSE, INDENT_1, INDENT_2, INDENT_3, INDENT_CLOSE, List.isPrefixOf]

theorem lex_of (s : List Char) (ms : List Mark)
    (h : ∀ rest, marks (s ++ rest) = ms ++ marks rest) : Indep s ∧ marks s = ms := by
  have h0 : marks s = ms := by
    have := h []
    simpa [marks] using this
  exact ⟨fun rest => by rw [h rest, h0], h0⟩

theorem lex_TITLE_OPEN :
    Indep TITLE_OPEN.data ∧ marks TITLE_OPEN.data = [Mark.opening Kind.title] :=
  lex_of _ _ (fun r => marks_marker.1 r)

theorem lex_TITLE_CLOSE :
    Indep TITLE_CLOSE.data ∧ marks TITLE_CLOSE.data = [Mark.closing Kind.title] :=
  lex_of _ _ (fun r => marks_marker.2.1 r)

theorem lex_WOJ_OPEN : Indep WOJ_OPEN.data ∧ marks WOJ_OPEN.data = [Mark.opening Kind.woj] :=
  lex_of _ _ (fun r => marks_marker.2.2.1 r)

theorem lex_WOJ_CLOSE : Indep WOJ_CLOSE.data ∧ marks WOJ_CLOSE.data = [Mark.closing Kind.woj] :=
  lex_of _ _ (fun r => marks_marker.2.2.2.1 r)

theorem lex_FOOTNOTE_OPEN :
    Indep FOOTNOTE_OPEN.data ∧ marks FOOTNOTE_OPEN.data = [Mark.opening Kind.footnote] :=
  lex_of _ _ (fun r => marks_marker.2.2.2.2.1 r)

theorem lex_FOOTNOTE_CLOSE :
    Indep FOOTNOTE_CLOSE.data ∧ marks FOOTNOTE_CLOSE.data = [Mark.closing Kind.footnote] :=
  lex_of _ _ (fun r => marks_marker.2.2.2.2.2.1 r)

theorem lex_INDENT_1 : Indep INDENT_1.data ∧ marks INDENT_1.data = [Mark.opening Kind.indent] :=
  lex_of _ _ (fun r => marks_marker.2.2.2.2.2.2.1 r)

theorem lex_INDENT_2 : Indep INDENT_2.data ∧ marks INDENT_2.data = [Mark.opening Kind.indent] :=
  lex_of _ _ (fun r => marks_marker.2.2.2.2.2.2.2.1 r)

theorem lex_INDENT_3 : Indep INDENT_3.data ∧ marks INDENT_3.data = [Mark.opening Kind.indent] :=
  lex_of _ _ (fun r => marks_marker.2.2.2.2.2.2.2.2.1 r)

theorem lex_INDENT_CLOSE :
    Indep INDENT_CLOSE.data ∧ marks INDENT_CLOSE.data = [Mark.closing Kind.indent] :=
  lex_of _ _ (fun r => marks_marker.2.2.2.2.2.2.2.2.2.1 r)

theorem lex_PARAGRAPH_BREAK : Indep PARAGRAPH_BREAK.data ∧ marks PARAGRAPH_BREAK.data = [] :=
  lex_of _ _ (fun r => marks_marker.2.2.2.2.2.2.2.2.2.2 r)

/-! ### Flattened texts are well-nested segments -/

theorem VerseOK_append {a b : String} (ha : VerseOK a) (hb : VerseOK b) : VerseOK (a ++ b) := by
  refine ⟨?_, ?_⟩
  · rw [String.data_append]
    exact Indep_append ha.1 hb.1
  · rw [String.data_append, marks_append ha.1]
    exact BalSeg_append ha.2 hb.2

theorem TextOK_append {a b : String} (ha : TextOK a) (hb : TextOK b) : TextOK (a ++ b) := by
  refine ⟨VerseOK_append ha.1 hb.1, ?_⟩
  rw [String.data_append, marks_append ha.1.1]
  intro h
  rcases List.mem_append.mp h with h | h
  · exact ha.2 h
  · exact hb.2 h

theorem TextOK_noLt (s : String) (h : noLt s = true) : TextOK s := by
  obtain ⟨h1, h2⟩ := noLt_Indep s.data h
  refine ⟨⟨h1, ?_⟩, ?_⟩
  · rw [h2]; exact BalSeg_nil
  · rw [h2]; simp

theorem TextOK_empty : TextOK "" :=
  TextOK_noLt "" rfl

theorem TextOK_wrap (o c t : String) (k : Kind) (hk : k ≠ Kind.indent)
    (ho : Indep o.data ∧ marks o.data = [Mark.opening k])
    (hc : Indep c.data ∧ marks c.data = [Mark.closing k]) (ht : TextOK t) :
    TextOK (o ++ (t ++ c)) := by
  have hi : Indep (o ++ (t ++ c)).data := by
    simp only [String.data_append]
    exact Indep_append ho.1 (Indep_append ht.1.1 hc.1)
  have hm : marks (o ++ (t ++ c)).data
      = Mark.opening k :: (marks t.data ++ [Mark.closing k]) := by
    simp only [String.data_append]
    rw [marks_append ho.1, marks_append ht.1.1, ho.2, hc.2]
    rfl
  refine ⟨⟨hi, ?_⟩, ?_⟩
  · rw [hm]; exact BalSeg_wrap k ht.1.2
  · rw [hm]
    intro h
    simp only [List.mem_cons, List.mem_append, List.mem_singleton, Mark.opening.injEq,
      List.not_mem_nil, or_false] at h
    rcases h with h | h | h
    · exact hk h.symm
    · exact ht.2 h
    · exact Mark.noConfusion h

theorem str_append (a b : List String) : str (a ++ b) = str a ++ str b := by
  induction a with
  | nil => simp [str]
  | cons x xs ih => simp [str, ih, String.append_assoc]

theorem str_singleton (a : String) : str [a] = a := by
  simp [str]

theorem noLt_append (a b : String) : noLt (a ++ b) = (noLt a && noLt b) := by
  simp [noLt, String.data_append, List.all_append]

mutual
theorem Node.Text_noLt : ∀ s : Node, s.allTexts noLt = true → noLt s.Text = true
  | .text d, h => h
  | .elem _ _ _ ch, h => by
    rw [Node.Text]
    exact textOfNodes_noLt ch h
theorem textOfNodes_noLt : ∀ sel : List Node, allTextsList noLt sel = true →
    noLt (textOfNodes sel) = true
  | [], _ => rfl
  | n :: ns, h => by
    rw [allTextsList, Bool.and_eq_true] at h
    rw [textOfNodes, noLt_append, Node.Text_noLt n h.1, textOfNodes_noLt ns h.2]
    rfl
end

theorem mapIndex_noLt (F : List (String × String)) (hF : ∀ kv ∈ F, noLt kv.2 = true)
    (l : String) : noLt (mapIndex F l) = true := by
  induction F with
  | nil => rfl
  | cons kv F ih =>
    obtain ⟨k, v⟩ := kv
    rw [mapIndex]
    split
    · exact hF (k, v) (List.mem_cons_self _ _)
    · exact ih (fun x hx => hF x (List.mem_cons_of_mem _ hx))

mutual
theorem Analyse_TextOK (U : String → String) (hU : ∀ s, noLt s = true → noLt (U s) = true)
    (F : List (String × String)) (hF : ∀ kv ∈ F, noLt kv.2 = true) :
    ∀ s : Node, s.allTexts noLt = true → TextOK (str (TextContent.Analyse U F [] s))
  | .text d, h => by
    simp only [TextContent.Analyse, TextContent.Append, List.nil_append, str_singleton]
    exact TextOK_noLt d h
  | .elem t cls id ch, h => by
    have hch : allTextsList noLt ch = true := h
    have ih := AnalyseEach_TextOK U hU F hF ch hch
    have htext : noLt (Node.elem t cls id ch).Text = true := Node.Text_noLt _ h
    unfold TextContent.Analyse
    by_cases h1 : Contains cls "woj" = true
    · simp only [h1, if_true, TextContent.Append]
      rw [TextContent.AnalyseEach_append, str_append, str_append, str_append, str_singleton,
        str_singleton]
      simp only [str, String.empty_append] 
      exact TextOK_wrap WOJ_OPEN WOJ_CLOSE _ Kind.woj (by decide) lex_WOJ_OPEN lex_WOJ_CLOSE ih
    · simp only [h1]
      by_cases h2 : Contains cls "footnote" = true
      · simp only [h2, if_true, TextContent.Footnote, TextContent.Append, List.nil_append,
          Bool.false_eq_true, if_false]
        have e : str [FOOTNOTE_OPEN, mapIndex F (textOfNodes
            ((Node.elem t cls id ch).Find "a")), FOOTNOTE_CLOSE]
            = FOOTNOTE_OPEN ++ (mapIndex F (textOfNodes
                ((Node.elem t cls id ch).Find "a")) ++ FOOTNOTE_CLOSE) := by
          simp [str]
        rw [e]
        exact TextOK_wrap FOOTNOTE_OPEN FOOTNOTE_CLOSE _ Kind.footnote (by decide)
          lex_FOOTNOTE_OPEN lex_FOOTNOTE_CLOSE (TextOK_noLt _ (mapIndex_noLt F hF _))
      · by_cases h3 : Contains cls "small-caps" = true
        · simp only [h2, h3, if_true, TextContent.SmallCaps, TextContent.Append,
            List.nil_append, Bool.false_eq_true, if_false, str_singleton]
          exact TextOK_noLt _ (hU _ htext)
        · simp only [h2, h3, TextContent.Append, List.nil_append, Bool.false_eq_true,
            if_false, str_singleton]
          exact TextOK_noLt _ htext
theorem AnalyseEach_TextOK (U : String → String)
    (hU : ∀ s, noLt s = true → noLt (U s) = true)
    (F : List (String × String)) (hF : ∀ kv ∈ F, noLt kv.2 = true) :
    ∀ sel : List Node, allTextsList noLt sel = true →
      TextOK (str (TextContent.AnalyseEach U F [] sel))
  | [], _ => TextOK_empty
  | s :: rest, h => by
    rw [allTextsList, Bool.and_eq_true] at h
    rw [TextContent.AnalyseEach, TextContent.AnalyseEach_append, str_append]
    exact TextOK_append (Analyse_TextOK U hU F hF s h.1) (AnalyseEach_TextOK U hU F hF rest h.2)
end

/-! ### The token list of a verse -/

theorem contains_PI1_marks (s : List Char) (h : containsAux INDENT_1.data s = true) :
    Mark.opening Kind.indent ∈ marks s := by
  induction s with
  | nil => exact absurd h (by decide)
  | cons c cs ih =>
    rw [containsAux, Bool.or_eq_true] at h
    rcases h with h | h
    · obtain ⟨t, ht⟩ := isPrefixOf_PI1 _ h
      rw [ht, marks_marker.2.2.2.2.2.2.1 t]
      exact List.mem_cons_self _ _
    · have := ih h
      rw [marks]
      split
      · exact List.mem_cons_of_mem _ this
      · exact this

theorem TextOK_no_INDENT_1 (t : String) (h : TextOK t) : Contains t INDENT_1 = false := by
  cases hc : Contains t INDENT_1
  · rfl
  · exact absurd (contains_PI1_marks t.data hc) h.2

theorem ContentOK_nil : ContentOK [] :=
  ⟨fun _ h => absurd h (List.not_mem_nil _), BalSeg_nil⟩

theorem ContentOK_append {a b : List String} (ha : ContentOK a) (hb : ContentOK b) :
    ContentOK (a ++ b) := by
  refine ⟨?_, ?_⟩
  · intro t ht
    rcases List.mem_append.mp ht with h | h
    · exact ha.1 t h
    · exact hb.1 t h
  · rw [List.flatMap_append]
    exact BalSeg_append ha.2 hb.2

theorem ContentOK_text (t : String) (h : TextOK t) : ContentOK [t] := by
  refine ⟨?_, ?_⟩
  · intro x hx
    rw [List.mem_singleton] at hx
    subst hx
    exact ⟨h.1.1, fun hc => by rw [TextOK_no_INDENT_1 x h] at hc; exact Bool.noConfusion hc⟩
  · simp only [List.flatMap_cons, List.flatMap_nil, List.append_nil]
    exact h.1.2

theorem ContentOK_break : ContentOK [PARAGRAPH_BREAK] := by
  refine ⟨?_, ?_⟩
  · intro x hx
    rw [List.mem_singleton] at hx
    subst hx
    exact ⟨lex_PARAGRAPH_BREAK.1, fun hc => absurd hc (by decide)⟩
  · simp only [List.flatMap_cons, List.flatMap_nil, List.append_nil, lex_PARAGRAPH_BREAK.2]
    exact BalSeg_nil

theorem ContentOK_wrap (o c t : String) (k : Kind)
    (ho : Indep o.data ∧ marks o.data = [Mark.opening k])
    (hc : Indep c.data ∧ marks c.data = [Mark.closing k])
    (ho1 : Contains o INDENT_1 = true → o = INDENT_1)
    (hc1 : Contains c INDENT_1 = false) (ht : TextOK t) :
    ContentOK [o, t, c] := by
  refine ⟨?_, ?_⟩
  · intro x hx
    simp only [List.mem_cons, List.mem_singleton, List.not_mem_nil, or_false] at hx
    rcases hx with hx | hx | hx
    · subst hx; exact ⟨ho.1, ho1⟩
    · subst hx
      exact ⟨ht.1.1, fun h => by rw [TextOK_no_INDENT_1 x ht] at h; exact Bool.noConfusion h⟩
    · subst hx
      exact ⟨hc.1, fun h => by rw [hc1] at h; exact Bool.noConfusion h⟩
  · simp only [List.flatMap_cons, List.flatMap_nil, List.append_nil, ho.2, hc.2]
    exact BalSeg_wrap k ht.1.2

theorem paragraphTokens_ContentOK (C : List String) : ContentOK (paragraphTokens C) := by
  unfold paragraphTokens
  split
  · exact ContentOK_nil
  · split
    · exact ContentOK_nil
    · exact ContentOK_break

theorem flatten_TextOK (U : String → String) (hU : ∀ s, noLt s = true → noLt (U s) = true)
    (F : List (String × String)) (hF : ∀ kv ∈ F, noLt kv.2 = true) (sel : List Node)
    (h : allTextsList noLt sel = true) : TextOK (flatten U F [] sel) :=
  AnalyseEach_TextOK U hU F hF sel h

theorem nodeTokens_ContentOK (U : String → String)
    (hU : ∀ s, noLt s = true → noLt (U s) = true)
    (F : List (String × String)) (hF : ∀ kv ∈ F, noLt kv.2 = true) (s : Selection)
    (h : s.node.allTexts noLt = true) : ContentOK (nodeTokens U F [] s) := by
  have h1 : TextOK (flatten U F [] [s.node]) := by
    apply flatten_TextOK U hU F hF
    rw [allTextsList, allTextsList, h]
    rfl
  have h2 : TextOK (flatten U F [] s.node.Contents) := by
    apply flatten_TextOK U hU F hF
    cases hs : s.node with
    | text d => rfl
    | elem t cls id ch =>
      rw [hs] at h
      exact h
  unfold nodeTokens
  split
  · exact ContentOK_wrap _ _ _ Kind.title lex_TITLE_OPEN lex_TITLE_CLOSE
      (fun hc => absurd hc (by decide)) (by decide) h1
  · split
    · exact ContentOK_wrap _ _ _ Kind.indent lex_INDENT_1 lex_INDENT_CLOSE
        (fun _ => rfl) (by decide) h2
    · split
      · exact ContentOK_wrap _ _ _ Kind.indent lex_INDENT_3 lex_INDENT_CLOSE
          (fun hc => absurd hc (by decide)) (by decide) h2
      · exact ContentOK_text _ h2

/-! ### Rendering the token list -/

theorem str_lex (L : List String) (h : ∀ t ∈ L, Indep t.data) :
    Indep (str L).data ∧ marks (str L).data = L.flatMap (fun t => marks t.data) := by
  induction L with
  | nil => exact ⟨Indep_nil, rfl⟩
  | cons x xs ih =>
    obtain ⟨i1, m1⟩ := ih (fun t ht => h t (List.mem_cons_of_mem _ ht))
    have hx := h x (List.mem_cons_self _ _)
    rw [str, String.data_append]
    exact ⟨Indep_append hx i1, by rw [marks_append hx, m1]; rfl⟩

theorem Replace_INDENT_1 : Replace INDENT_1 INDENT_1 INDENT_2 = INDENT_2 := by decide

theorem cleanLoop_lex (L : List String) (h : ContentOK L) :
    ∀ b : Bool, (∀ t ∈ cleanLoop b [] L, Indep t.data)
      ∧ (cleanLoop b [] L).flatMap (fun t => marks t.data)
          = L.flatMap (fun t => marks t.data) := by
  obtain ⟨h1, -⟩ := h
  induction L with
  | nil => intro b; exact ⟨fun _ ht => absurd ht (List.not_mem_nil _), rfl⟩
  | cons x xs ih =>
    intro b
    have hx := h1 x (List.mem_cons_self _ _)
    have ihx := ih (fun t ht => h1 t (List.mem_cons_of_mem _ ht))
    rw [cleanLoop_cons]
    have key : Indep (if Contains x INDENT_1 = true then
            (if b = true then x else Replace x INDENT_1 INDENT_2) else x).data
        ∧ marks (if Contains x INDENT_1 = true then
            (if b = true then x else Replace x INDENT_1 INDENT_2) else x).data
          = marks x.data := by
      by_cases hc : Contains x INDENT_1 = true
      · have e := hx.2 hc
        subst e
        cases b
        · rw [if_pos hc, if_neg (by decide), Replace_INDENT_1]
          exact ⟨lex_INDENT_2.1, by rw [lex_INDENT_2.2, lex_INDENT_1.2]⟩
        · rw [if_pos hc, if_pos rfl]
          exact ⟨hx.1, rfl⟩
      · rw [if_neg hc]
        exact ⟨hx.1, rfl⟩
    obtain ⟨i2, m2⟩ := ihx (b && !Contains x INDENT_1)
    refine ⟨?_, ?_⟩
    · intro t ht
      rcases List.mem_cons.mp ht with e | e
      · rw [e]; exact key.1
      · exact i2 t e
    · rw [List.flatMap_cons, List.flatMap_cons, key.2, m2]

theorem CleanIndent_VerseOK (V : VerseData) (h : ContentOK V.Content) :
    VerseOK V.CleanIndent.asString := by
  have hgen : ∀ L : List String, (∀ t ∈ L, Indep t.data) →
      L.flatMap (fun t => marks t.data) = V.Content.flatMap (fun t => marks t.data) →
      VerseOK (str L) := by
    intro L hL hm
    obtain ⟨i, m⟩ := str_lex L hL
    exact ⟨i, by rw [m, hm]; exact h.2⟩
  unfold VerseData.CleanIndent VerseData.asString
  split
  · obtain ⟨i, m⟩ := cleanLoop_lex V.Content h true
    exact hgen _ i m
  · exact hgen _ (fun t ht => (h.1 t ht).1) rfl

/-! ### The invariant along the pipeline -/

mutual
theorem matchAllClass_allTexts (p : String → Bool) (name : String) :
    ∀ (n : Node) (parents : List String), n.allTexts p = true →
      ∀ sel ∈ n.matchAllClass name parents, sel.node.allTexts p = true
  | .text _, _, _ => fun _ hs => absurd hs (List.not_mem_nil _)
  | .elem t cls id ch, parents, h => by
    intro sel hs
    rw [Node.matchAllClass] at hs
    rcases List.mem_append.mp hs with h1 | h1
    · split at h1
      · rw [List.mem_singleton] at h1
        rw [h1]
        exact h
      · exact absurd h1 (List.not_mem_nil _)
    · exact matchAllClassList_allTexts p name ch (cls :: parents) h sel h1
theorem matchAllClassList_allTexts (p : String → Bool) (name : String) :
    ∀ (ns : List Node) (parents : List String), allTextsList p ns = true →
      ∀ sel ∈ matchAllClassList name parents ns, sel.node.allTexts p = true
  | [], _, _ => fun _ hs => absurd hs (List.not_mem_nil _)
  | n :: ns, parents, h => by
    intro sel hs
    rw [allTextsList, Bool.and_eq_true] at h
    rw [matchAllClassList] at hs
    rcases List.mem_append.mp hs with h1 | h1
    · exact matchAllClass_allTexts p name n parents h.1 sel h1
    · exact matchAllClassList_allTexts p name ns parents h.2 sel h1
end

theorem VerseOK_break : VerseOK PARAGRAPH_BREAK :=
  ⟨lex_PARAGRAPH_BREAK.1, by rw [lex_PARAGRAPH_BREAK.2]; exact BalSeg_nil⟩

theorem appendLast_VerseOK (vs : List String) (h : ∀ v ∈ vs, VerseOK v) :
    ∀ v ∈ appendLast vs PARAGRAPH_BREAK, VerseOK v := by
  rcases List.eq_nil_or_concat vs with e | ⟨init, last, e⟩
  · subst e; exact h
  · rw [List.concat_eq_append] at e
    subst e
    rw [appendLast_concat]
    intro v hv
    rcases List.mem_append.mp hv with h1 | h1
    · exact h v (List.mem_append_left _ h1)
    · rw [List.mem_singleton] at h1
      rw [h1]
      exact VerseOK_append (h last (List.mem_append_right _ (List.mem_singleton_self _)))
        VerseOK_break

theorem nodeStep_inv (U : String → String) (hU : ∀ s, noLt s = true → noLt (U s) = true)
    (g : Globals) (s : Selection) (hs : s.node.allTexts noLt = true)
    (hF : ∀ kv ∈ g.Chapter.Footnotes, noLt kv.2 = true)
    (hV : ∀ v ∈ g.Chapter.Verses, VerseOK v) (hC : ContentOK g.Verse.Content)
    (hT : g.Text = []) :
    (∀ v ∈ (nodeStep U g s).Chapter.Verses, VerseOK v)
      ∧ ContentOK (nodeStep U g s).Verse.Content := by
  refine ⟨?_, ?_⟩
  · simp only [nodeStep, paragraphVerses]
    split
    · split
      · exact appendLast_VerseOK _ hV
      · exact hV
    · exact hV
  · simp only [nodeStep, hT]
    refine ContentOK_append (ContentOK_append hC ?_) (nodeTokens_ContentOK U hU _ hF s hs)
    split
    · exact paragraphTokens_ContentOK _
    · exact ContentOK_nil

theorem contentSteps_inv (U : String → String) (hU : ∀ s, noLt s = true → noLt (U s) = true)
    (sels : List Selection) (hs : ∀ s ∈ sels, s.node.allTexts noLt = true) :
    ∀ g : Globals, (∀ kv ∈ g.Chapter.Footnotes, noLt kv.2 = true) →
      (∀ v ∈ g.Chapter.Verses, VerseOK v) → ContentOK g.Verse.Content → g.Text = [] →
      (∀ v ∈ (contentSteps U g sels).Chapter.Verses, VerseOK v)
        ∧ ContentOK (contentSteps U g sels).Verse.Content := by
  induction sels with
  | nil => intro g _ hV hC _; exact ⟨hV, hC⟩
  | cons s rest ih =>
    intro g hF hV hC hT
    have ih1 := ih (fun x hx => hs x (List.mem_cons_of_mem _ hx))
    rw [contentSteps]
    split
    · obtain ⟨h1, h2⟩ := nodeStep_inv U hU g s (hs s (List.mem_cons_self _ _)) hF hV hC hT
      exact ih1 (nodeStep U g s) hF h1 h2 rfl
    · exact ih1 g hF hV hC hT

theorem verseStep_inv (U : String → String) (hU : ∀ s, noLt s = true → noLt (U s) = true)
    (g : Globals) (v : Nat) (hD : allTextsList noLt g.Chapter.Doc = true)
    (hF : ∀ kv ∈ g.Chapter.Footnotes, noLt kv.2 = true)
    (hV : ∀ v ∈ g.Chapter.Verses, VerseOK v) (hC : g.Verse.Content = []) (hT : g.Text = []) :
    ∀ x ∈ (verseStep U g v).Chapter.Verses, VerseOK x := by
  have hsel : ∀ s ∈ FindClass g.Chapter.Doc "text", s.node.allTexts noLt = true :=
    matchAllClassList_allTexts noLt "text" g.Chapter.Doc [] hD
  have hC0 : ContentOK (VerseData.GenHtmlClass g v).Verse.Content := by
    simp only [VerseData.GenHtmlClass, hC]
    exact ContentOK_nil
  obtain ⟨h1, h2⟩ := contentSteps_inv U hU _ hsel (VerseData.GenHtmlClass g v) hF hV hC0 hT
  intro x hx
  simp only [verseStep, ChapterData.Append] at hx
  rcases List.mem_append.mp hx with e | e
  · exact h1 x e
  · rw [List.mem_singleton] at e
    rw [e]
    exact CleanIndent_VerseOK _ h2

theorem verseSteps_inv (U : String → String) (hU : ∀ s, noLt s = true → noLt (U s) = true)
    (vs : List Nat) :
    ∀ g : Globals, allTextsList noLt g.Chapter.Doc = true →
      (∀ kv ∈ g.Chapter.Footnotes, noLt kv.2 = true) →
      (∀ v ∈ g.Chapter.Verses, VerseOK v) → g.Verse.Content = [] → g.Text = [] →
      ∀ x ∈ (verseSteps U g vs).Chapter.Verses, VerseOK x := by
  induction vs with
  | nil => intro g _ _ hV _ _; exact hV
  | cons v rest ih =>
    intro g hD hF hV hC hT
    have hsame := verseStep_sameChapter U g v
    rw [verseSteps]
    apply ih (verseStep U g v)
    · rw [hsame.1]; exact hD
    · rw [hsame.2.2.2]; exact hF
    · exact verseStep_inv U hU g v hD hF hV hC hT
    · rfl
    · exact verseStep_text U g v hT

theorem VerseOK_wellNested (v : String) (h : VerseOK v) : wellNested v = true := by
  have := h.2 [] []
  rw [List.append_nil] at this
  rw [wellNested, this]
  rfl

/-! ### C1 -/

/-- C1, amended. Tag balance: for every chapter whose text nodes and footnote texts have
no character `<` (and an upper-casing that introduces none), processed from the empty list
of finalized verses with an empty verse record and text buffer, `AddVerses` returns, and
every finalized verse string it returns is well nested with respect to the marker pairs
`<TS>`/`<Ts>`, `<FR>`/`<Fr>`, `<RF>`/`<Rf>` and `<PI1>`|`<PI2>`|`<PI3>`/`<CI>`. -/
theorem C1_tag_balance_amended (ToUpper : String → String) (g : Globals)
    (hU : ∀ s, noLt s = true → noLt (ToUpper s) = true)
    (hdoc : allTextsList noLt g.Chapter.Doc = true)
    (hfn : ∀ kv ∈ g.Chapter.Footnotes, noLt kv.2 = true)
    (hV : g.Chapter.Verses = []) (hC : g.Verse.Content = []) (hT : g.Text = []) :
    ∃ g1, ChapterData.AddVerses ToUpper g = some g1
      ∧ ∀ v ∈ g1.Chapter.Verses, wellNested v = true := by
  refine ⟨_, ChapterData.AddVerses_eq ToUpper g, ?_⟩
  intro v hv
  apply VerseOK_wellNested
  exact verseSteps_inv ToUpper hU _ g hdoc hfn
    (by rw [hV]; exact fun _ h => absurd h (List.not_mem_nil _)) hC hT v hv

theorem toUpper_ne_lt (c : Char) (h : c ≠ '<') : c.toUpper ≠ '<' := by
  unfold Char.toUpper
  simp only
  split
  · rename_i hr
    obtain ⟨h1, h2⟩ := hr
    generalize c.toNat = n at h1 h2
    interval_cases n <;> decide
  · exact h

theorem asciiUpper_noLt (s : String) (h : noLt s = true) : noLt (asciiUpper s) = true := by
  unfold noLt asciiUpper at *
  simp only [List.all_eq_true, decide_eq_true_eq, List.mem_map, forall_exists_index, and_imp,
    forall_apply_eq_imp_iff₂] at h ⊢
  intro c hc
  exact toUpper_ne_lt c (h c hc)

/-- C1, amended, at the chapter `poetryDoc`: two poetry lines and a continuation line, with
a footnote, quoted speech and small caps. -/
theorem C1_tag_balance_amended_witness :
    ∃ g1, ChapterData.AddVerses asciiUpper (initial poetryDoc "Ps-1-" 1 [("a", "Or man")])
        = some g1
      ∧ ∀ v ∈ g1.Chapter.Verses, wellNested v = true :=
  C1_tag_balance_amended asciiUpper (initial poetryDoc "Ps-1-" 1 [("a", "Or man")])
    asciiUpper_noLt (by decide) (by decide) rfl rfl rfl

/-! ### C15, C16 -/

theorem AnalyseEach_flatMap (U : String → String) (F : List (String × String)) :
    ∀ sel : List Node,
      TextContent.AnalyseEach U F [] sel
        = sel.flatMap (fun c => TextContent.Analyse U F [] c) := by
  intro sel
  induction sel with
  | nil => rfl
  | cons s rest ih =>
    rw [TextContent.AnalyseEach, TextContent.AnalyseEach_append, ih, List.flatMap_cons]

theorem AnalyseEach_concat (U : String → String) (F : List (String × String))
    (Text : TextContent) (xs ys : List Node) :
    TextContent.AnalyseEach U F Text (xs ++ ys)
      = TextContent.AnalyseEach U F Text xs ++ TextContent.AnalyseEach U F [] ys := by
  rw [TextContent.AnalyseEach_append U F (xs ++ ys) Text, TextContent.AnalyseEach_append U F xs Text,
    AnalyseEach_flatMap, AnalyseEach_flatMap, AnalyseEach_flatMap, List.flatMap_append,
    List.append_assoc]

/-- C15. Document order is preserved by flattening: with the text buffer empty on entry (as
it is at the start and after every `ParseContents`), the text that `ParseContents` produces
for `xs` followed by `ys` is the text it produces for `xs` followed by the text it produces
for `ys`; it is the concatenation of what `Analyse` appends for each item in document
order.  `ParseContents` appends exactly one token, that text, to the verse, changes nothing
else of the verse or the chapter, and leaves the text buffer empty. -/
theorem C15_document_order (ToUpper : String → String) (g : Globals) (xs ys : List Node)
    (hT : g.Text = []) :
    (∃ tx ty,
        (VerseData.ParseContents ToUpper g xs).Verse.Content = g.Verse.Content ++ [tx]
        ∧ (VerseData.ParseContents ToUpper g ys).Verse.Content = g.Verse.Content ++ [ty]
        ∧ (VerseData.ParseContents ToUpper g (xs ++ ys)).Verse.Content
            = g.Verse.Content ++ [tx ++ ty])
      ∧ (VerseData.ParseContents ToUpper g xs).Verse.Content
          = g.Verse.Content ++ [str (xs.flatMap
              (fun c => TextContent.Analyse ToUpper g.Chapter.Footnotes [] c))]
      ∧ (VerseData.ParseContents ToUpper g xs).Text = []
      ∧ (VerseData.ParseContents ToUpper g xs).Chapter = g.Chapter
      ∧ (VerseData.ParseContents ToUpper g xs).Verse.HtmlClass = g.Verse.HtmlClass
      ∧ (VerseData.ParseContents ToUpper g xs).Verse.ContainsPoetry
          = g.Verse.ContainsPoetry := by
  refine ⟨⟨flatten ToUpper g.Chapter.Footnotes [] xs, flatten ToUpper g.Chapter.Footnotes [] ys,
    ?_, ?_, ?_⟩, ?_, rfl, rfl, rfl, rfl⟩
  · rw [VerseData.ParseContents_eq, hT]; rfl
  · rw [VerseData.ParseContents_eq, hT]; rfl
  · rw [VerseData.ParseContents_eq, hT]
    simp only [VerseData.Append, flatten, TextContent.asString]
    rw [AnalyseEach_concat, str_append]
  · rw [VerseData.ParseContents_eq, hT]
    simp only [VerseData.Append, flatten, TextContent.asString]
    rw [AnalyseEach_flatMap]

/-- C15 at the items "In the " and `<span class="small-caps">Lord</span>`, " we trust". -/
theorem C15_document_order_witness :
    (VerseData.ParseContents asciiUpper (initial [] "" 0 [])
        ([Node.text "In the "]
          ++ [Node.elem "span" "small-caps" "" [Node.text "Lord"], Node.text " we trust"])
      ).Verse.Content = ["In the " ++ "LORD we trust"] := by
  obtain ⟨⟨tx, ty, h1, h2, h3⟩, _⟩ := C15_document_order asciiUpper (initial [] "" 0 [])
    [Node.text "In the "]
    [Node.elem "span" "small-caps" "" [Node.text "Lord"], Node.text " we trust"] rfl
  have e1 : tx = "In the " := by
    have : [tx] = ["In the "] := by rw [← List.nil_append [tx]]; exact h1.symm.trans (by decide)
    exact List.head_eq_of_cons_eq this
  have e2 : ty = "LORD we trust" := by
    have : [ty] = ["LORD we trust"] := by
      rw [← List.nil_append [ty]]; exact h2.symm.trans (by decide)
    exact List.head_eq_of_cons_eq this
  rw [h3, e1, e2]
  rfl

/-- C16. Quoted-speech flattening: for every item whose class contains "woj", whatever else
the class contains, `Analyse` (a total function on the finite tree) appends `<FR>`, then
what it appends for each child item of the item in document order, then `<Fr>`; this is
`Text.WoJ` on the contents of the item. -/
theorem C16_quoted_speech (ToUpper : String → String) (F : List (String × String))
    (Text : TextContent) (s : Node) (hw : Contains s.class "woj" = true) :
    TextContent.Analyse ToUpper F Text s
        = Text ++ [WOJ_OPEN]
            ++ s.Contents.flatMap (fun c => TextContent.Analyse ToUpper F [] c)
            ++ [WOJ_CLOSE]
      ∧ TextContent.Analyse ToUpper F Text s = TextContent.WoJ ToUpper F Text s.Contents := by
  cases s with
  | text d =>
    have h0 : Contains "" "woj" = false := by decide
    simp only [Node.class, h0] at hw
    exact Bool.noConfusion hw
  | elem t cls id ch =>
    simp only [Node.class] at hw
    have h2 : TextContent.Analyse ToUpper F Text (Node.elem t cls id ch)
        = TextContent.WoJ ToUpper F Text ch := by
      simp [TextContent.Analyse, TextContent.WoJ, hw]
    refine ⟨?_, h2⟩
    rw [h2, TextContent.WoJ, TextContent.Append, TextContent.Append,
      TextContent.AnalyseEach_append, AnalyseEach_flatMap]
    rfl

/-- C16 at an item whose class contains "woj", "footnote" and "small-caps". -/
theorem C16_quoted_speech_witness :
    TextContent.Analyse asciiUpper [] ["x"]
        (Node.elem "span" "woj footnote small-caps" ""
          [Node.text "I am the ", Node.elem "span" "small-caps" "" [Node.text "Lord"]])
      = ["x", "<FR>", "I am the ", "LORD", "<Fr>"] := by
  rw [(C16_quoted_speech asciiUpper [] ["x"] _ (by decide)).1]
  decide

/-! ### C17 -/

theorem cleanLoop_length (L : List String) :
    ∀ b : Bool, (cleanLoop b [] L).length = L.length := by
  induction L with
  | nil => intro b; rfl
  | cons x rest ih =>
    intro b
    rw [cleanLoop_cons, List.length_cons, List.length_cons, ih]

/-- After the first token with `<PI1>` no token of the result contains `<PI1>`. -/
theorem cleanLoop_false_none (L : List String) :
    ∀ (i : Nat) (t : String), (cleanLoop false [] L)[i]? = some t → Contains t INDENT_1 = false := by
  induction L with
  | nil => intro i t h; simp [cleanLoop] at h
  | cons x rest ih =>
    intro i t h
    rw [cleanLoop_cons] at h
    simp only [Bool.false_and, Bool.false_eq_true, if_false] at h
    cases i with
    | zero =>
      simp only [List.getElem?_cons_zero, Option.some.injEq] at h
      rw [← h]
      by_cases hx : Contains x INDENT_1 = true
      · rw [if_pos hx]; exact Replace_no_INDENT_1 x
      · rw [if_neg hx]; exact Bool.eq_false_iff.mpr hx
    | succ i =>
      simp only [List.getElem?_cons_succ] at h
      exact ih i t h

/-- A token of the result that contains `<PI1>` is the first token of the input that
contains it, at the same index. -/
theorem cleanLoop_true_first (L : List String) :
    ∀ (i : Nat) (t : String), (cleanLoop true [] L)[i]? = some t → Contains t INDENT_1 = true →
      L[i]? = some t ∧ ∀ (k : Nat) (u : String), k < i → L[k]? = some u → Contains u INDENT_1 = false := by
  induction L with
  | nil => intro i t h; simp [cleanLoop] at h
  | cons x rest ih =>
    intro i t h ht
    rw [cleanLoop_cons] at h
    have hhead : (if Contains x INDENT_1 = true then
        (if true = true then x else Replace x INDENT_1 INDENT_2) else x) = x := by
      split <;> rfl
    rw [hhead] at h
    cases i with
    | zero =>
      simp only [List.getElem?_cons_zero] at h ⊢
      exact ⟨h, fun k u hk => absurd hk (Nat.not_lt_zero k)⟩
    | succ i =>
      simp only [List.getElem?_cons_succ] at h ⊢
      by_cases hx : Contains x INDENT_1 = true
      · simp only [hx, Bool.not_true, Bool.and_false] at h
        rw [cleanLoop_false_none rest i t h] at ht
        exact Bool.noConfusion ht
      · have hx0 : Contains x INDENT_1 = false := Bool.eq_false_iff.mpr hx
        simp only [hx0, Bool.not_false, Bool.and_true] at h
        obtain ⟨h1, h2⟩ := ih i t h ht
        refine ⟨h1, ?_⟩
        intro k u hk hu
        cases k with
        | zero =>
          simp only [List.getElem?_cons_zero, Option.some.injEq] at hu
          rw [← hu]; exact hx0
        | succ k =>
          simp only [List.getElem?_cons_succ] at hu
          exact h2 k u (by omega) hu

/-- The first token of the input that contains `<PI1>` is kept as it is. -/
theorem cleanLoop_true_keeps (L : List String) :
    ∀ (i : Nat) (t : String), L[i]? = some t →
      (∀ (k : Nat) (u : String), k < i → L[k]? = some u → Contains u INDENT_1 = false) →
      (cleanLoop true [] L)[i]? = some t := by
  induction L with
  | nil => intro i t h; simp at h
  | cons x rest ih =>
    intro i t h hbefore
    rw [cleanLoop_cons]
    have hhead : (if Contains x INDENT_1 = true then
        (if true = true then x else Replace x INDENT_1 INDENT_2) else x) = x := by
      split <;> rfl
    rw [hhead]
    cases i with
    | zero =>
      simp only [List.getElem?_cons_zero] at h ⊢
      exact h
    | succ i =>
      simp only [List.getElem?_cons_succ] at h ⊢
      have hx0 : Contains x INDENT_1 = false :=
        hbefore 0 x (by omega) (List.getElem?_cons_zero)
      simp only [hx0, Bool.not_false, Bool.and_true]
      exact ih i t h (fun k u hk hu =>
        hbefore (k + 1) u (by omega) (by rw [List.getElem?_cons_succ]; exact hu))

/-- C17. For every token list, after `CleanIndentTags` at most one token contains `<PI1>`;
a token of the result that contains it is the first token of the input that contained it,
unchanged and at the same index, and that first token is always kept; replacing every
`<PI1>` by `<PI2>` in a token leaves no occurrence of `<PI1>`. -/
theorem C17_single_indent_token (Verse : VerseData) :
    (∀ (i j : Nat) (ti tj : String), Verse.CleanIndentTags.Content[i]? = some ti →
        Verse.CleanIndentTags.Content[j]? = some tj →
        Contains ti INDENT_1 = true → Contains tj INDENT_1 = true → i = j)
      ∧ (∀ (i : Nat) (t : String), Verse.CleanIndentTags.Content[i]? = some t → Contains t INDENT_1 = true →
          Verse.Content[i]? = some t
            ∧ ∀ (k : Nat) (u : String), k < i → Verse.Content[k]? = some u → Contains u INDENT_1 = false)
      ∧ (∀ (i : Nat) (t : String), Verse.Content[i]? = some t → Contains t INDENT_1 = true →
          (∀ (k : Nat) (u : String), k < i → Verse.Content[k]? = some u → Contains u INDENT_1 = false) →
          Verse.CleanIndentTags.Content[i]? = some t)
      ∧ (∀ s, Contains (Replace s INDENT_1 INDENT_2) INDENT_1 = false) := by
  have hfirst := cleanLoop_true_first Verse.Content
  refine ⟨?_, hfirst, ?_, Replace_no_INDENT_1⟩
  · intro i j ti tj hi hj hti htj
    obtain ⟨hi1, hi2⟩ := hfirst i ti hi hti
    obtain ⟨hj1, hj2⟩ := hfirst j tj hj htj
    rcases Nat.lt_trichotomy i j with h | h | h
    · rw [hj2 i ti h hi1] at hti
      exact Bool.noConfusion hti
    · exact h
    · rw [hi2 j tj h hj1] at htj
      exact Bool.noConfusion htj
  · intro i t h _ hbefore
    exact cleanLoop_true_keeps Verse.Content i t h hbefore

/-! ### C14 -/

theorem cleanLoop_keeps_other (L : List String) :
    ∀ (b : Bool) (i : Nat) (t : String), L[i]? = some t → Contains t INDENT_1 = false →
      (cleanLoop b [] L)[i]? = some t := by
  induction L with
  | nil => intro b i t h; simp at h
  | cons x rest ih =>
    intro b i t h ht
    rw [cleanLoop_cons]
    cases i with
    | zero =>
      simp only [List.getElem?_cons_zero, Option.some.injEq] at h ⊢
      subst h
      simp [ht]
    | succ i =>
      simp only [List.getElem?_cons_succ] at h ⊢
      exact ih _ i t h ht

theorem same12_refl (s : List Char) : same12 s s := by
  induction s with
  | nil => exact True.intro
  | cons c cs ih => exact ⟨Or.inl rfl, ih⟩

theorem same12_append {a b : List Char} (c d : List Char) (h1 : same12 a b)
    (h2 : same12 c d) : same12 (a ++ c) (b ++ d) := by
  induction a generalizing b with
  | nil =>
    cases b with
    | nil => exact h2
    | cons y ys => exact False.elim h1
  | cons x xs ih =>
    cases b with
    | nil => exact False.elim h1
    | cons y ys => exact ⟨h1.1, ih h1.2⟩

theorem same12_replace (n : Nat) :
    ∀ s : List Char, s.length ≤ n →
      same12 s (replaceAux ['<', 'P', 'I', '1', '>'] ['<', 'P', 'I', '2', '>'] 0 s) := by
  induction n with
  | zero =>
    intro s hs
    have : s = [] := List.length_eq_zero.mp (Nat.le_zero.mp hs)
    subst this
    exact True.intro
  | succ n ih =>
    intro s hs
    cases s with
    | nil => exact True.intro
    | cons c cs =>
      by_cases hp : List.isPrefixOf ['<', 'P', 'I', '1', '>'] (c :: cs) = true
      · obtain ⟨t, ht⟩ := isPrefixOf_PI1 _ hp
        rw [ht, replaceAux_at]
        have ht2 : t.length ≤ n := by
          rw [ht] at hs
          simp only [List.length_cons] at hs
          omega
        exact ⟨Or.inl rfl, Or.inl rfl, Or.inl rfl, Or.inr ⟨rfl, rfl⟩, Or.inl rfl, ih t ht2⟩
      · rw [replaceAux_off c cs (Bool.eq_false_iff.mpr hp)]
        refine ⟨Or.inl rfl, ih cs ?_⟩
        simp only [List.length_cons] at hs
        omega

theorem same12_cleanLoop (L : List String) :
    ∀ b : Bool, same12 (str L).data (str (cleanLoop b [] L)).data := by
  induction L with
  | nil => intro b; exact True.intro
  | cons x rest ih =>
    intro b
    rw [cleanLoop_cons, str_data_cons, str_data_cons]
    apply same12_append _ _ _ (ih _)
    split
    · split
      · exact same12_refl _
      · exact same12_replace x.data.length x.data (Nat.le_refl _)
    · exact same12_refl _

/-- A pattern without the characters `1` and `2` starts at the same positions of both
lists. -/
theorem same12_isPrefixOf (p : List Char) (hp : ∀ c ∈ p, c ≠ '1' ∧ c ≠ '2') :
    ∀ a b : List Char, same12 a b → p.isPrefixOf a = p.isPrefixOf b := by
  induction p with
  | nil => intro a b _; simp [List.isPrefixOf]
  | cons q qs ih =>
    intro a b h
    cases a with
    | nil =>
      cases b with
      | nil => rfl
      | cons y ys => exact False.elim h
    | cons x xs =>
      cases b with
      | nil => exact False.elim h
      | cons y ys =>
        have hq := hp q (List.mem_cons_self _ _)
        have ihq := ih (fun c hc => hp c (List.mem_cons_of_mem _ hc)) xs ys h.2
        simp only [List.isPrefixOf, ihq]
        rcases h.1 with e | ⟨e1, e2⟩
        · rw [e]
        · subst e1 e2
          have n1 : (q == '1') = false := by simpa using hq.1
          have n2 : (q == '2') = false := by simpa using hq.2
          rw [n1, n2]

theorem same12_occurrences (p : List Char) (hp : ∀ c ∈ p, c ≠ '1' ∧ c ≠ '2') :
    ∀ a b : List Char, same12 a b → occurrencesAux p a = occurrencesAux p b := by
  intro a
  induction a with
  | nil =>
    intro b h
    cases b with
    | nil => rfl
    | cons y ys => exact False.elim h
  | cons x xs ih =>
    intro b h
    cases b with
    | nil => exact False.elim h
    | cons y ys =>
      rw [occurrencesAux, occurrencesAux, same12_isPrefixOf p hp _ _ h, ih ys h.2]

/-- C14. Triple-indent and non-indent content is untouched by normalization: for every
token list `CleanIndentTags` returns a list of the same length, in which every token that
does not contain `<PI1>` is the same token at the same index; the numbers of occurrences of
`<PI3>` and of `<CI>` in the rendered text are unchanged; and `CleanIndent` is the identity
on a verse whose `ContainsPoetry` flag is false. -/
theorem C14_normalization_frame (Verse : VerseData) :
    Verse.CleanIndentTags.Content.length = Verse.Content.length
      ∧ (∀ (i : Nat) (t : String), Verse.Content[i]? = some t →
          Contains t INDENT_1 = false → Verse.CleanIndentTags.Content[i]? = some t)
      ∧ occurrences Verse.CleanIndentTags.asString INDENT_3
          = occurrences Verse.asString INDENT_3
      ∧ occurrences Verse.CleanIndentTags.asString INDENT_CLOSE
          = occurrences Verse.asString INDENT_CLOSE
      ∧ (Verse.ContainsPoetry = false → Verse.CleanIndent = Verse) := by
  have hs := same12_cleanLoop Verse.Content true
  refine ⟨cleanLoop_length Verse.Content true, cleanLoop_keeps_other Verse.Content true, ?_, ?_,
    ?_⟩
  · exact (same12_occurrences INDENT_3.data (by decide) _ _ hs).symm
  · exact (same12_occurrences INDENT_CLOSE.data (by decide) _ _ hs).symm
  · intro h
    simp [VerseData.CleanIndent, h]

/-- C14 at the tokens of two poetry lines and a continuation line. -/
theorem C14_normalization_frame_witness :
    (VerseData.CleanIndentTags
        ⟨0, "", true, ["<PI1>", "a", "<CI>", "<PI3>", "b", "<CI>", "<PI1>", "c", "<CI>"]⟩).Content
        = ["<PI1>", "a", "<CI>", "<PI3>", "b", "<CI>", "<PI2>", "c", "<CI>"]
      ∧ occurrences (VerseData.CleanIndentTags
          ⟨0, "", true, ["<PI1>", "a", "<CI>", "<PI3>", "b", "<CI>", "<PI1>", "c", "<CI>"]⟩
          ).asString INDENT_CLOSE = 3
      ∧ VerseData.CleanIndent ⟨0, "", false, ["<PI1>", "<PI1>"]⟩
          = ⟨0, "", false, ["<PI1>", "<PI1>"]⟩ := by
  have h := C14_normalization_frame
    ⟨0, "", true, ["<PI1>", "a", "<CI>", "<PI3>", "b", "<CI>", "<PI1>", "c", "<CI>"]⟩
  refine ⟨by decide, ?_, (C14_normalization_frame ⟨0, "", false, ["<PI1>", "<PI1>"]⟩).2.2.2.2 rfl⟩
  rw [h.2.2.2.1]
  decide

/-! ### C18 -/

theorem appendLast_getElem (vs : List String) (t : String) (i : Nat) (x : String)
    (h : vs[i]? = some x) :
    (i + 1 < vs.length → (appendLast vs t)[i]? = some x)
      ∧ (i + 1 = vs.length → (appendLast vs t)[i]? = some (x ++ t)) := by
  rcases List.eq_nil_or_concat vs with e | ⟨init, last, e⟩
  · subst e; simp at h
  · rw [List.concat_eq_append] at e
    subst e
    rw [appendLast_concat]
    constructor
    · intro hi
      have hi2 : i < init.length := by simp at hi; exact hi
      rw [List.getElem?_append_left hi2] at h ⊢
      exact h
    · intro hi
      have hi2 : i = init.length := by simp at hi; exact hi
      subst hi2
      rw [List.getElem?_concat_length] at h ⊢
      rw [Option.some.inj h]

theorem verseSteps_content (U : String → String) (vs : List Nat) :
    ∀ g : Globals, g.Verse.Content = [] → (verseSteps U g vs).Verse.Content = [] := by
  induction vs with
  | nil => intro g h; exact h
  | cons v rest ih => intro g _; rw [verseSteps]; exact ih _ rfl

/-- One verse: the finalized verses get the new string at their end, and before that at
most one `<CM>` at the end of their last string. -/
theorem verseStep_verses_cases (U : String → String) (g : Globals) (v : Nat)
    (hC : g.Verse.Content = []) :
    ∃ new, (verseStep U g v).Chapter.Verses = g.Chapter.Verses ++ [new]
      ∨ (verseStep U g v).Chapter.Verses
          = appendLast g.Chapter.Verses PARAGRAPH_BREAK ++ [new] := by
  refine ⟨(contentSteps U (VerseData.GenHtmlClass g v)
    (FindClass g.Chapter.Doc "text")).Verse.CleanIndent.asString, ?_⟩
  simp only [verseStep, ChapterData.Append]
  rw [contentSteps_filter]
  generalize (FindClass g.Chapter.Doc "text").filter
    (fun s => decide (s.node.class = (VerseData.GenHtmlClass g v).Verse.HtmlClass)) = L
  cases L with
  | nil => exact Or.inl rfl
  | cons s rest =>
    rw [List.foldl_cons]
    have hne : (nodeStep U (VerseData.GenHtmlClass g v) s).Verse.Content ≠ [] := by
      simp [nodeStep, nodeTokens_ne_nil]
    obtain ⟨h1, _⟩ := nodeSteps_after_first U rest _ hne
    rw [h1]
    simp only [nodeStep, VerseData.GenHtmlClass, hC, paragraphVerses]
    split
    · exact Or.inr (by simp)
    · exact Or.inl rfl

/-- Any number of verses: a finalized string that is not the last one stays as it is, and
the last one stays as it is or gets exactly one `<CM>` at its end. -/
theorem verseSteps_once (U : String → String) (vs : List Nat) :
    ∀ g : Globals, g.Verse.Content = [] →
      ∀ (i : Nat) (x : String), g.Chapter.Verses[i]? = some x →
        (i + 1 < g.Chapter.Verses.length →
            (verseSteps U g vs).Chapter.Verses[i]? = some x)
          ∧ ((verseSteps U g vs).Chapter.Verses[i]? = some x
              ∨ (i + 1 = g.Chapter.Verses.length
                  ∧ (verseSteps U g vs).Chapter.Verses[i]? = some (x ++ PARAGRAPH_BREAK))) := by
  induction vs with
  | nil => intro g _ i x h; exact ⟨fun _ => h, Or.inl h⟩
  | cons v rest ih =>
    intro g hC i x h
    have hlt : i < g.Chapter.Verses.length := by
      by_contra hn
      rw [List.getElem?_eq_none (by omega)] at h
      exact Option.noConfusion h
    rw [verseSteps]
    have hnext := ih (verseStep U g v) rfl i
    have hlen := verseStep_verses_length U g v
    obtain ⟨new, hcase | hcase⟩ := verseStep_verses_cases U g v hC
    · have hi : (verseStep U g v).Chapter.Verses[i]? = some x := by
        rw [hcase, List.getElem?_append_left hlt]; exact h
      have hfin := (hnext x hi).1 (by omega)
      exact ⟨fun _ => hfin, Or.inl hfin⟩
    · have hal := appendLast_getElem g.Chapter.Verses PARAGRAPH_BREAK i x h
      have hlt2 : i < (appendLast g.Chapter.Verses PARAGRAPH_BREAK).length := by
        rw [appendLast_length]; exact hlt
      by_cases hlast : i + 1 < g.Chapter.Verses.length
      · have hi : (verseStep U g v).Chapter.Verses[i]? = some x := by
          rw [hcase, List.getElem?_append_left hlt2]; exact hal.1 hlast
        have hfin := (hnext x hi).1 (by omega)
        exact ⟨fun _ => hfin, Or.inl hfin⟩
      · have heq : i + 1 = g.Chapter.Verses.length := by omega
        have hi : (verseStep U g v).Chapter.Verses[i]? = some (x ++ PARAGRAPH_BREAK) := by
          rw [hcase, List.getElem?_append_left hlt2]; exact hal.2 heq
        have hfin := (hnext _ hi).1 (by omega)
        exact ⟨fun hc => absurd hc hlast, Or.inr ⟨heq, hfin⟩⟩

/-- C18. Processing any single node of a verse (`AnalyseGenre`) returns and leaves the token
list of the verse non-empty, and when the list was non-empty before, it leaves the
finalized verses as they are: only the first processed node of a verse can relocate.
Consequently, in a run that starts between two verses (empty token list), with `before` the
verses already processed and `after` those still to come: every string finalized by
`before` is, at the end of the run, either unchanged or, if it was the most recently
finalized one, followed by exactly one `<CM>`; a string that was not the most recent one is
unchanged. -/
theorem C18_relocation_once (ToUpper : String → String) (g : Globals)
    (hC : g.Verse.Content = []) :
    (∀ (g0 : Globals) (s : Selection), ∃ g1, VerseData.AnalyseGenre ToUpper g0 s = some g1
        ∧ g1.Verse.Content ≠ []
        ∧ (g0.Verse.Content ≠ [] → g1.Chapter.Verses = g0.Chapter.Verses)
        ∧ (g1.Chapter.Verses = g0.Chapter.Verses
            ∨ g1.Chapter.Verses = appendLast g0.Chapter.Verses PARAGRAPH_BREAK))
      ∧ (∀ verse : Nat, ∃ g1 new, ChapterData.AddVerse ToUpper g verse = some g1
          ∧ g1.Verse.Content = []
          ∧ (g1.Chapter.Verses = g.Chapter.Verses ++ [new]
              ∨ g1.Chapter.Verses = appendLast g.Chapter.Verses PARAGRAPH_BREAK ++ [new]))
      ∧ (∀ before after : List Nat, ∃ ga g1,
          addVersesLoop ToUpper g before = some ga
          ∧ addVersesLoop ToUpper g (before ++ after) = some g1
          ∧ ∀ (i : Nat) (x : String), ga.Chapter.Verses[i]? = some x →
              (i + 1 < ga.Chapter.Verses.length → g1.Chapter.Verses[i]? = some x)
              ∧ (g1.Chapter.Verses[i]? = some x
                  ∨ (i + 1 = ga.Chapter.Verses.length
                      ∧ g1.Chapter.Verses[i]? = some (x ++ PARAGRAPH_BREAK)))) := by
  refine ⟨?_, ?_, ?_⟩
  · intro g0 s
    refine ⟨_, VerseData.AnalyseGenre_eq ToUpper g0 s, ?_, ?_, ?_⟩
    · simp [nodeStep, nodeTokens_ne_nil]
    · intro hne
      simp [nodeStep, paragraphVerses, hne]
    · simp only [nodeStep, paragraphVerses]
      split
      · split
        · exact Or.inr rfl
        · exact Or.inl rfl
      · exact Or.inl rfl
  · intro verse
    obtain ⟨new, hcase⟩ := verseStep_verses_cases ToUpper g verse hC
    exact ⟨_, new, ChapterData.AddVerse_eq ToUpper g verse, rfl, hcase⟩
  · intro before after
    refine ⟨_, _, addVersesLoop_eq ToUpper before g, addVersesLoop_eq ToUpper _ g, ?_⟩
    rw [verseSteps_append]
    exact verseSteps_once ToUpper after _ (verseSteps_content ToUpper before g hC)

/-- C18 at the chapter `twoParagraphsDoc`: verse 1 is finalized as `In the beginning` and
ends the run as `In the beginning<CM>`. -/
theorem C18_relocation_once_witness :
    ∃ ga g1, addVersesLoop asciiUpper (initial twoParagraphsDoc "Gen-1-" 2 []) [1] = some ga
      ∧ addVersesLoop asciiUpper (initial twoParagraphsDoc "Gen-1-" 2 []) ([1] ++ [2]) = some g1
      ∧ ga.Chapter.Verses = ["In the beginning"]
      ∧ (g1.Chapter.Verses[0]? = some "In the beginning"
          ∨ g1.Chapter.Verses[0]? = some ("In the beginning" ++ "<CM>")) := by
  obtain ⟨ga, g1, h1, h2, h3⟩ :=
    (C18_relocation_once asciiUpper (initial twoParagraphsDoc "Gen-1-" 2 []) rfl).2.2 [1] [2]
  have hga : ga.Chapter.Verses = ["In the beginning"] := by
    have e := (addVersesLoop_eq asciiUpper [1] (initial twoParagraphsDoc "Gen-1-" 2 [])).symm.trans h1
    rw [← Option.some.inj e]
    decide
  refine ⟨ga, g1, h1, h2, hga, ?_⟩
  rcases (h3 0 "In the beginning" (by rw [hga]; rfl)).2 with h | ⟨_, h⟩
  · exact Or.inl h
  · exact Or.inr h

/-! ### C11 -/

theorem footnoteLoop_isSome (h : Helpers) (hL : ∀ id, (h.lastLetter id).isSome = true)
    (items : List Node) :
    ∀ F : List (String × String), (footnoteLoop h F items).isSome = true := by
  induction items with
  | nil => intro F; rfl
  | cons s rest ih =>
    intro F
    rw [footnoteLoop]
    simp only
    split
    · cases hl : h.lastLetter s.id with
      | none =>
        have := hL s.id
        rw [hl] at this
        exact Bool.noConfusion this
      | some l => exact ih _
    · exact ih _

/-- `GenFootnotes` returns when `lastLetter` does, and changes only the footnotes. -/
theorem GenFootnotes_returns (h : Helpers) (hL : ∀ id, (h.lastLetter id).isSome = true)
    (Chapter : ChapterData) :
    ∃ F, Chapter.GenFootnotes h = some { Chapter with Footnotes := F } := by
  unfold ChapterData.GenFootnotes
  simp only
  split
  · have hs := footnoteLoop_isSome h hL
      ((matchAllTagList "ol" Chapter.Doc).flatMap Node.Contents) []
    cases hf : footnoteLoop h [] ((matchAllTagList "ol" Chapter.Doc).flatMap Node.Contents) with
    | none =>
      rw [hf] at hs
      exact Bool.noConfusion hs
    | some F => exact ⟨F, rfl⟩
  · exact ⟨[], rfl⟩

/-- C11 as stated fails.  In the page `badVerseDoc` the last passage-text node has the class
`text Gen-1-x`, whose verse-number component `x` is no integer: `strconv.Atoi` reports an
error with the value 0, `GenHtmlClass` drops the error and stores the verse count 0, and
`Parse` returns normally, with an empty list of verses. -/
theorem C11_classifier_counterexample :
    lastClass (FindUnder (ChapterData.mk badVerseDoc "" 0 [] []).CleanDoc.Doc "p" "text")
        = "text Gen-1-x"
      ∧ specHelpers.suffixHyphenSecond "text Gen-1-x" = some "x"
      ∧ Atoi "x" = (0, false)
      ∧ ((ChapterData.mk badVerseDoc "" 0 [] []).CleanDoc.GenHtmlClass specHelpers).map
          (fun c => (c.HtmlClass, c.VerseIndex)) = some ("Gen-1-", 0)
      ∧ (ChapterData.Parse specHelpers asciiUpper badVerseDoc (initial [] "" 0 [])).map
          Prod.fst = some [] := by
  decide

/-- C11, amended. Chapter Classifier: `GenHtmlClass` reports no failure of its own.  When
the helpers return (`d`, `c`, `v` for the last passage-text class, "" if there is no
passage-text node), it stores `c` as class fingerprint and the value of `strconv.Atoi(v)`
as verse count, whether or not `Atoi` reported an error.  When `Atoi` reports a syntax
error (value 0), `Parse` as a whole returns normally with the empty list of verses. -/
theorem C11_classifier_amended (h : Helpers) (ToUpper : String → String)
    (fetched : List Node) (g : Globals) (d c v : String)
    (hV : g.Chapter.Verses = [])
    (h1 : h.prefixHyphenSecond
      (lastClass (FindUnder ({ g.Chapter with Doc := fetched }).CleanDoc.Doc "p" "text"))
        = some d)
    (h2 : h.suffixSpace d = some c)
    (h3 : h.suffixHyphenSecond
      (lastClass (FindUnder ({ g.Chapter with Doc := fetched }).CleanDoc.Doc "p" "text"))
        = some v)
    (hL : ∀ id, (h.lastLetter id).isSome = true) :
    ({ g.Chapter with Doc := fetched }).CleanDoc.GenHtmlClass h
        = some { ({ g.Chapter with Doc := fetched }).CleanDoc with
            HtmlClass := c, VerseIndex := (Atoi v).1 }
      ∧ (Atoi v = (0, false) →
          ∃ g1, ChapterData.Parse h ToUpper fetched g = some ([], g1)) := by
  have hgen : ({ g.Chapter with Doc := fetched }).CleanDoc.GenHtmlClass h
      = some { ({ g.Chapter with Doc := fetched }).CleanDoc with
          HtmlClass := c, VerseIndex := (Atoi v).1 } := by
    unfold ChapterData.GenHtmlClass
    simp only [h1, h2, h3]
  refine ⟨hgen, ?_⟩
  intro hA
  obtain ⟨F, hF⟩ := GenFootnotes_returns h hL
    { ({ g.Chapter with Doc := fetched }).CleanDoc with
      HtmlClass := c, VerseIndex := (Atoi v).1 }
  unfold ChapterData.Parse
  simp only [hgen, hF]
  rw [ChapterData.AddVerses_eq]
  simp only [ChapterData.TagDoc, ChapterData.CleanDoc, hA, Int.toNat_zero, List.range'_zero,
    verseSteps, hV]
  exact ⟨_, rfl⟩

/-- C11, amended, at the page `badVerseDoc`. -/
theorem C11_classifier_amended_witness :
    ∃ g1, ChapterData.Parse specHelpers asciiUpper badVerseDoc (initial [] "" 0 [])
      = some ([], g1) :=
  (C11_classifier_amended specHelpers asciiUpper badVerseDoc (initial [] "" 0 [])
    "text Gen-1-" "Gen-1-" "x" rfl (by decide) (by decide) (by decide) (fun _ => rfl)).2
    (by decide)

/-! ### C12, C13: the rules at their failing inputs -/

/-- C12 at its failing inputs.  The title node of `psalmTitleDoc` in prose: `AnalyseGenre`
appends `<TS>`, the raw text `A psalm of the Lord[a]` of the node, `<Ts>`, while the
flattener's output for the contents of the node is `A psalm of the LORD` followed by the
footnote `<RF>In Hebrew texts 3:2<Rf>`; `Parse` returns the raw text for the page.  The same
title-marked node in continuation poetry gets `<PI3>` and `<CI>` and no title marker. -/
theorem C12_title_rule_failing_input :
    (VerseData.AnalyseGenre asciiUpper
        (initial [] "Ps-3-" 1 [("a", "In Hebrew texts 3:2")]) psalmTitle).map
        (fun g => g.Verse.Content) = some ["<TS>", "A psalm of the Lord[a]", "<Ts>"]
      ∧ flatten asciiUpper [("a", "In Hebrew texts 3:2")] [] psalmTitle.node.Contents
          = "A psalm of the LORD<RF>In Hebrew texts 3:2<Rf>"
      ∧ (ChapterData.Parse specHelpers asciiUpper psalmTitleDoc (initial [] "" 0 [])).map
          Prod.fst = some ["<TS>A psalm of the Lord[a]<Ts>How many"]
      ∧ psalmTitle.node.id = "title"
      ∧ (VerseData.AnalyseGenre asciiUpper
          (initial [] "Ps-3-" 1 [("a", "In Hebrew texts 3:2")])
          ⟨psalmTitle.node, ["indent-1"]⟩).map (fun g => g.Verse.Content)
          = some ["<PI3>", "A psalm of the LORD<RF>In Hebrew texts 3:2<Rf>", "<CI>"] := by
  decide

/-- C13 at its failing input.  The node `plainIndented` has no id and the ancestor class
"indent-1", and its first child has the id "paragraph": `AnalyseGenre` appends `<CM>`
before `<PI3>`, the flattened contents and `<CI>`; with the id "title" on the first child
it appends `<TS>`, the text and `<Ts>` instead.  `Parse` on the page `indentParagraphDoc`
reaches the first case. -/
theorem C13_genre_dispatch_failing_input :
    plainIndented.node.id = "" ∧ classParents plainIndented = "indent-1"
      ∧ (VerseData.AnalyseGenre asciiUpper
          ⟨⟨[], "Ps-1-", 1, [], []⟩, ⟨0, "", true, ["<PI1>", "Blessed", "<CI>"]⟩, []⟩
          plainIndented).map (fun g => g.Verse.Content)
          = some ["<PI1>", "Blessed", "<CI>", "<CM>", "<PI3>", "who walks", "<CI>"]
      ∧ (VerseData.AnalyseGenre asciiUpper
          ⟨⟨[], "Ps-1-", 1, [], []⟩, ⟨0, "", true, ["<PI1>", "Blessed", "<CI>"]⟩, []⟩
          ⟨Node.elem "p" "text Ps-1-1" ""
              [Node.elem "span" "inner Ps-1-1" "title" [Node.text "who walks"]],
            ["indent-1"]⟩).map (fun g => g.Verse.Content)
          = some ["<PI1>", "Blessed", "<CI>", "<TS>", "who walks", "<Ts>"]
      ∧ (ChapterData.Parse specHelpers asciiUpper indentParagraphDoc (initial [] "" 0 [])).map
          Prod.fst = some ["<PI1>Blessed<CI><CM><PI3>who walks<CI>"] := by
  decide

/-- What holds of the genre rules for a node whose rule reads neither "title" nor
"paragraph" (the id of the node in prose and first-line poetry, the id of its first child
in continuation poetry), with the text buffer empty on entry: the chapter is untouched,
and the tokens are the flattened contents, between an indent marker and `<CI>` in poetry;
only first-line poetry sets `ContainsPoetry`. -/
theorem AnalyseGenre_plain (U : String → String) (g : Globals) (s : Selection)
    (hT : g.Text = []) (h1 : ruleId s ≠ "title") (h2 : ruleId s ≠ "paragraph") :
    ∃ g1, VerseData.AnalyseGenre U g s = some g1
      ∧ g1.Chapter = g.Chapter ∧ g1.Text = []
      ∧ g1.Verse.HtmlClass = g.Verse.HtmlClass
      ∧ g1.Verse.ContainsPoetry
          = (g.Verse.ContainsPoetry || decide (classParents s = POETRY_LINE_NORMAL))
      ∧ g1.Verse.Content = g.Verse.Content ++
          (if classParents s = POETRY_LINE_NORMAL then
            [INDENT_1, flatten U g.Chapter.Footnotes [] s.node.Contents, INDENT_CLOSE]
          else if classParents s = POETRY_LINE_INDENTED then
            [INDENT_3, flatten U g.Chapter.Footnotes [] s.node.Contents, INDENT_CLOSE]
          else [flatten U g.Chapter.Footnotes [] s.node.Contents]) := by
  refine ⟨_, VerseData.AnalyseGenre_eq U g s, ?_, rfl, rfl, rfl, ?_⟩
  · simp [nodeStep, h2]
  · simp [nodeStep, nodeTokens, h1, h2, hT]

/-- What holds of the title rule: for a node whose rule reads "title", with the text buffer
empty on entry, the tokens are `<TS>`, what the flattener appends for the node itself (not
for its contents), and `<Ts>`; the chapter and `ContainsPoetry` apart from first-line
poetry are untouched. -/
theorem AnalyseGenre_title (U : String → String) (g : Globals) (s : Selection)
    (hT : g.Text = []) (h1 : ruleId s = "title") :
    ∃ g1, VerseData.AnalyseGenre U g s = some g1
      ∧ g1.Chapter = g.Chapter ∧ g1.Text = []
      ∧ g1.Verse.Content = g.Verse.Content ++
          [TITLE_OPEN, flatten U g.Chapter.Footnotes [] [s.node], TITLE_CLOSE] := by
  refine ⟨_, VerseData.AnalyseGenre_eq U g s, ?_, rfl, ?_⟩
  · simp [nodeStep, h1, title_ne_paragraph]
  · simp [nodeStep, nodeTokens, h1, hT, title_ne_paragraph]

end Parse
